import Mathlib

/-!
Verification of the currency-conversion tool's API layer
(`src/app/src/lib/api.ts`) against its specification.

Shallow embedding conventions:
* JavaScript numbers are embedded as `JsNum`: a finite rational, `NaN`,
  or a signed infinity.  Floating-point rounding is abstracted by exact
  rational arithmetic; the finite/non-finite distinction and the special
  values produced by division are modelled explicitly.
* JSON/JS values are the inductive `Json`.  `undefined` is represented
  by `Option Json = none` at use sites (property access, nullish
  coalescing); `null` is the constructor `Json.null`.
* A JS object is a `Json.obj` field list.  Following `JSON.parse`
  semantics for duplicate keys, property access reads the LAST binding
  of a key and `Object.entries`/`Object.keys` enumerate each key once,
  at its first position, with its last value.
* `fetch`-based endpoints are parameters of type `Except Unit Json`
  ( `.error ()` = transport failure / non-OK HTTP status, i.e. the
  `get` helper threw); the surrounding functions mirror the source's
  `try`/`catch` structure.
* `localStorage` reads are modelled post-`JSON.parse`:
  `Option (Option Json)` where `none` = no usable stored string and
  `some none` = a stored string on which `JSON.parse` throws.
* String ordering (`localeCompare`, default `Array.sort()`) is modelled
  as code-point lexicographic order (`lexLt` below).
* Date arithmetic (`getTimeseries`'s per-day fallback) is modelled
  over the proleptic Gregorian calendar (years ≥ 1), with instants as
  UTC date/minute pairs and the runtime timezone — which
  `setDate`/`getDate` consult while `toISOString` does not — as an
  explicit `TimeZone` capability (`fixedOffset c` for DST-free zones,
  `newYork2024` for a DST spring-forward window).  `Date` parsing of
  strict `YYYY-MM-DD` strings yields UTC midnight.
-/

namespace CurrencyApi

/-- A JavaScript number: finite (exact rational), `NaN`, or `±Infinity`. -/
inductive JsNum where
  | fin (q : ℚ)
  | nan
  | posInf
  | negInf
deriving DecidableEq, Repr

/-- A JavaScript/JSON value. `undefined` is not a value here; it is
represented by `none` in `Option Json` at the places it can arise. -/
inductive Json where
  | null
  | bool (b : Bool)
  | num (n : JsNum)
  | str (s : String)
  | arr (elems : List Json)
  | obj (fields : List (String × Json))

/-- `Number.isFinite` on a `JsNum`. -/
def JsNum.isFinite : JsNum → Bool
  | .fin _ => true
  | _ => false

/-- Code-point lexicographic order on character lists (the order used by
`localeCompare` and default `Array.sort()` in this embedding). -/
def lexLt : List Char → List Char → Bool
  | [], [] => false
  | [], _ :: _ => true
  | _ :: _, [] => false
  | a :: as, b :: bs =>
    if a.toNat < b.toNat then true
    else if a.toNat = b.toNat then lexLt as bs else false

/-- Strict string order. -/
def strLt (a b : String) : Bool := lexLt a.data b.data

/-- Reflexive string order. -/
def strLe (a b : String) : Bool := !(strLt b a)

/-- `toUpperCase()` (ASCII range, which covers every character this
development's claims inspect). -/
def strToUpper (s : String) : String :=
  ⟨s.data.map (fun c => if 'a' ≤ c && c ≤ 'z' then Char.ofNat (c.toNat - 32) else c)⟩

/-- The whitespace removed by `String.prototype.trim()`. -/
def jsWhitespace (c : Char) : Bool :=
  c = ' ' || c = '\t' || c = '\n' || c = '\r' || c = '\x0b' || c = '\x0c'

/-- `trim()`. -/
def strTrim (s : String) : String :=
  ⟨((s.data.dropWhile jsWhitespace).reverse.dropWhile jsWhitespace).reverse⟩

/-- Property access `o?.k`: reads the last binding of `k` on an object;
`undefined` (i.e. `none`) on primitives, arrays and missing keys. -/
def jget : Json → String → Option Json
  | .obj fields, k => ((fields.filter (fun p => p.1 = k)).getLast?).map (·.2)
  | _, _ => none

/-- Optional chaining `o?.k` applied to a possibly-`undefined` base. -/
def jgetOpt (o : Option Json) (k : String) : Option Json :=
  match o with
  | some j => jget j k
  | none => none

/-- Nullish test: `undefined` or `null`. -/
def isNullish : Option Json → Bool
  | none => true
  | some .null => true
  | some _ => false

/-- Nullish coalescing `a ?? b`. -/
def nco (a b : Option Json) : Option Json :=
  if isNullish a then b else a

/-- JS truthiness of a value. -/
def truthy : Json → Bool
  | .null => false
  | .bool b => b
  | .num (.fin q) => q ≠ 0
  | .num .nan => false
  | .num _ => true
  | .str s => s ≠ ""
  | .arr _ => true
  | .obj _ => true

/-- Truthiness of a possibly-`undefined` value (`undefined` is falsy). -/
def truthyOpt : Option Json → Bool
  | none => false
  | some j => truthy j

/-- Keep-first deduplication (the order `new Set([...])` iterates). -/
def dedupFirstAux {α : Type} [DecidableEq α] (seen : List α) : List α → List α
  | [] => []
  | a :: l => if a ∈ seen then dedupFirstAux seen l else a :: dedupFirstAux (a :: seen) l

/-- `Array.from(new Set(l))`. -/
def dedupFirst {α : Type} [DecidableEq α] (l : List α) : List α :=
  dedupFirstAux [] l

/-- The keys a JS object enumerates: each key once, in first-occurrence
order (duplicate bindings in the model collapse as `JSON.parse` would). -/
def objKeys (fields : List (String × Json)) : List String :=
  dedupFirst (fields.map (·.1))

/-- `Object.entries` of an object value: unique keys, last value wins. -/
def objEntries (fields : List (String × Json)) : List (String × Json) :=
  (objKeys fields).map (fun k =>
    (k, (((fields.filter (fun p => p.1 = k)).getLast?).map (·.2)).getD Json.null))

/-- The decimal digit character for `n % 10`. -/
def digitChar (n : Nat) : Char := Char.ofNat (48 + n % 10)

/-- Decimal digits of `n`, most significant first, prepended to `acc`.
`fuel` only bounds the recursion; `natToString` passes `n + 1`, which
always exceeds the number of digits of `n`. -/
def natToStringAux (fuel n : Nat) (acc : List Char) : List Char :=
  match fuel with
  | 0 => acc
  | fuel + 1 =>
    if n < 10 then digitChar n :: acc
    else natToStringAux fuel (n / 10) (digitChar (n % 10) :: acc)

/-- Decimal string of a natural number (JS `String(n)` for a
non-negative integer: no sign, no leading zeros). -/
def natToString (n : Nat) : String := ⟨natToStringAux (n + 1) n []⟩

/-- The numeric value of a most-significant-first decimal digit list. -/
def valDigits (cs : List Char) : Nat :=
  cs.foldl (fun a c => 10 * a + (c.toNat - 48)) 0

/-- String form of a JS number (`String(x)`).  For non-integral finite
values the exact JS shortest-round-trip decimal is approximated by a
`num/den` rendering; every such rendering contains a digit, so it is
interchangeable with the JS form everywhere this development inspects
the result (the `^[A-Z]{3,5}$` code test and name backfill). -/
def jsNumToString : JsNum → String
  | .nan => "NaN"
  | .posInf => "Infinity"
  | .negInf => "-Infinity"
  | .fin q =>
    if q.den = 1 then
      (if q.num < 0 then "-" else "") ++ natToString q.num.natAbs
    else
      (if q.num < 0 then "-" else "") ++ natToString q.num.natAbs ++ "/" ++ natToString q.den

mutual

/-- `String(v)` for a JS value. -/
def jsToString : Json → String
  | .null => "null"
  | .bool b => if b then "true" else "false"
  | .num n => jsNumToString n
  | .str s => s
  | .arr xs => jsArrToString xs
  | .obj _ => "[object Object]"

/-- `Array.prototype.toString`: elements joined by commas, with `null`
(and holes) rendered as the empty string. -/
def jsArrToString : List Json → String
  | [] => ""
  | [x] => jsElemToString x
  | x :: xs => jsElemToString x ++ "," ++ jsArrToString xs

/-- One array element inside a join. -/
def jsElemToString : Json → String
  | .null => ""
  | .bool b => if b then "true" else "false"
  | .num n => jsNumToString n
  | .str s => s
  | .arr xs => jsArrToString xs
  | .obj _ => "[object Object]"

end

/-- `String(v)` where `v` may be `undefined`. -/
def jsToStringOpt : Option Json → String
  | none => "undefined"
  | some j => jsToString j

/-- Value of a decimal digit character, if it is one. -/
def digitVal (c : Char) : Option Nat :=
  if '0' ≤ c ∧ c ≤ '9' then some (c.toNat - 48) else none

/-- Fold a digit list in a given base; `none` unless every character is
a digit of that base (ASCII, upper- or lower-case for bases above 10). -/
def digitsToNat (base : Nat) : List Char → Option Nat → Option Nat
  | [], acc => acc
  | c :: cs, acc =>
    let v :=
      if '0' ≤ c ∧ c ≤ '9' then some (c.toNat - 48)
      else if 'a' ≤ c ∧ c ≤ 'f' then some (c.toNat - 87)
      else if 'A' ≤ c ∧ c ≤ 'F' then some (c.toNat - 55)
      else none
    match v, acc with
    | some d, some n => if d < base then digitsToNat base cs (some (base * n + d)) else none
    | _, _ => none

/-- Parse an unsigned decimal literal `digits [. digits] [e [sign] digits]`
into an exact rational (the mathematical value of the literal). -/
def parseDecimal (cs : List Char) : Option ℚ :=
  let intPart := cs.takeWhile (fun c => '0' ≤ c ∧ c ≤ '9')
  let rest := cs.dropWhile (fun c => '0' ≤ c ∧ c ≤ '9')
  let fracResult :=
    match rest with
    | '.' :: rest2 =>
      let fracPart := rest2.takeWhile (fun c => '0' ≤ c ∧ c ≤ '9')
      let rest3 := rest2.dropWhile (fun c => '0' ≤ c ∧ c ≤ '9')
      if intPart.isEmpty ∧ fracPart.isEmpty then none
      else some (intPart, fracPart, rest3)
    | _ =>
      if intPart.isEmpty then none else some (intPart, [], rest)
  match fracResult with
  | none => none
  | some (ip, fp, rest3) =>
    let mantissa : Option ℚ :=
      match digitsToNat 10 ip (some 0), digitsToNat 10 fp (some 0) with
      | some i, some f => some ((i : ℚ) + (f : ℚ) / ((10 : ℚ) ^ fp.length))
      | _, _ => none
    let applyExp : ℚ → List Char → Option ℚ := fun m r =>
      match r with
      | [] => some m
      | 'e' :: es | 'E' :: es =>
        let signedDigits :=
          match es with
          | '+' :: ds => some (true, ds)
          | '-' :: ds => some (false, ds)
          | ds => some (true, ds)
        match signedDigits with
        | some (pos, ds) =>
          if ds.isEmpty then none
          else match digitsToNat 10 ds (some 0) with
            | some e => some (if pos then m * (10 : ℚ) ^ e else m / (10 : ℚ) ^ e)
            | none => none
        | none => none
      | _ => none
    match mantissa with
    | some m => applyExp m rest3
    | none => none

/-- `ToNumber` on a string (`Number(s)`): trimmed; empty means `0`;
decimal, `Infinity`, and radix-prefixed (`0x`/`0o`/`0b`) literals are
recognized; everything else is `NaN`. -/
def parseJsNumber (s : String) : JsNum :=
  let t := strTrim s
  if t = "" then .fin 0
  else if t = "Infinity" ∨ t = "+Infinity" then .posInf
  else if t = "-Infinity" then .negInf
  else
    match t.data with
    | '0' :: 'x' :: cs | '0' :: 'X' :: cs =>
      (match digitsToNat 16 cs (some 0), cs with
       | some n, _ :: _ => .fin (n : ℚ)
       | _, _ => .nan)
    | '0' :: 'o' :: cs | '0' :: 'O' :: cs =>
      (match digitsToNat 8 cs (some 0), cs with
       | some n, _ :: _ => .fin (n : ℚ)
       | _, _ => .nan)
    | '0' :: 'b' :: cs | '0' :: 'B' :: cs =>
      (match digitsToNat 2 cs (some 0), cs with
       | some n, _ :: _ => .fin (n : ℚ)
       | _, _ => .nan)
    | cs0 =>
      let signed : Bool × List Char :=
        match cs0 with
        | '+' :: cs => (true, cs)
        | '-' :: cs => (false, cs)
        | cs => (true, cs)
      match parseDecimal signed.2 with
      | some q => .fin (if signed.1 then q else -q)
      | none => .nan

/-- `ToNumber` on a JS value (`Number(v)`). Arrays coerce through their
string form; plain objects give `NaN`. -/
def jsToNumber : Json → JsNum
  | .null => .fin 0
  | .bool b => .fin (if b then 1 else 0)
  | .num n => n
  | .str s => parseJsNumber s
  | .arr xs => parseJsNumber (jsArrToString xs)
  | .obj _ => .nan

/-- `Number(v)` where `v` may be `undefined` (`Number(undefined) = NaN`). -/
def jsToNumberOpt : Option Json → JsNum
  | none => .nan
  | some j => jsToNumber j

/-- JS division of two finite numbers (`a / b`), with the IEEE special
results for a zero divisor. -/
def jsDivQ (a b : ℚ) : JsNum :=
  if b = 0 then
    if a = 0 then .nan else if 0 < a then .posInf else .negInf
  else .fin (a / b)

/-- JS multiplication of a finite number by a possibly-special number. -/
def jsMulQ (a : ℚ) (b : JsNum) : JsNum :=
  match b with
  | .fin q => .fin (a * q)
  | .nan => .nan
  | .posInf => if a = 0 then .nan else if 0 < a then .posInf else .negInf
  | .negInf => if a = 0 then .nan else if 0 < a then .negInf else .posInf

/-- JS division of two possibly-special numbers. -/
def jsDivNum (a b : JsNum) : JsNum :=
  match a, b with
  | .nan, _ | _, .nan => .nan
  | .posInf, .posInf | .posInf, .negInf | .negInf, .posInf | .negInf, .negInf => .nan
  | .posInf, .fin q => if 0 ≤ q then .posInf else .negInf
  | .negInf, .fin q => if 0 ≤ q then .negInf else .posInf
  | .fin _, .posInf | .fin _, .negInf => .fin 0
  | .fin a, .fin b => jsDivQ a b

/-- JS subtraction `a - b` with `a` finite. -/
def jsSubQ (a : ℚ) (b : JsNum) : JsNum :=
  match b with
  | .fin q => .fin (a - q)
  | .nan => .nan
  | .posInf => .negInf
  | .negInf => .posInf

/-- JS comparison `x < c` against a finite bound (`NaN` compares false). -/
def jsLtQ (x : JsNum) (c : ℚ) : Bool :=
  match x with
  | .fin q => q < c
  | .negInf => true
  | _ => false

/-- The currency-code pattern `^[A-Z]{3,5}$`. -/
def isCode (s : String) : Bool :=
  decide (3 ≤ s.length) && decide (s.length ≤ 5) &&
    s.data.all (fun c => 'A' ≤ c && c ≤ 'Z')

/-!  ### Rate Map Normalizer (`parseRates`)  -/

/-- Insert-or-overwrite into a string-keyed association list, keeping
the position of an existing key (JS object assignment `out[k] = v`). -/
def upsert {α : Type} (l : List (String × α)) (k : String) (v : α) : List (String × α) :=
  if l.any (fun p => p.1 = k) then
    l.map (fun p => if p.1 = k then (k, v) else p)
  else l ++ [(k, v)]

/-- The `rates` object selected by `parseRates`:
`json?.rates ?? json?.response?.rates`, then rejected unless it is a
truthy value of object type (`!rates || typeof rates !== 'object'`). -/
def ratesSource (json : Json) : Option Json :=
  match nco (jget json "rates") (jgetOpt (jget json "response") "rates") with
  | some v =>
    match v with
    | .obj _ => some v
    | .arr _ => some v
    | _ => none
  | none => none

/-- `Object.entries` as applied to any selected value (arrays enumerate
their indices). -/
def jsEntries : Json → List (String × Json)
  | .obj fields => objEntries fields
  | .arr xs => (List.range xs.length).zip xs |>.map (fun p => (natToString p.1, p.2))
  | _ => []

/-- `parseRates`: keep the entries whose value is a finite number,
keyed by the uppercased key. -/
def parseRates (json : Json) : List (String × ℚ) :=
  match ratesSource json with
  | none => []
  | some v =>
    (jsEntries v).foldl
      (fun out p =>
        match p.2 with
        | .num (.fin q) => upsert out (strToUpper p.1) q
        | _ => out)
      []

/-- Rate lookup `rates[code]` on the normalized map. -/
def lookupRate (rates : List (String × ℚ)) (code : String) : Option ℚ :=
  (rates.find? (fun p => p.1 = code)).map (·.2)

/-!  ### Currency List Normalizer (`parseCurrenciesJSON`)  -/

/-- A normalized currency. `symbol` holds the raw JS value that the
source stores there (`undefined` = `none`); it is typed
`string | undefined` in the source only by cast. -/
structure Currency where
  code : String
  name : String
  symbol : Option Json

/-- The comparator `(a, b) => a.name.localeCompare(b.name) || a.code.localeCompare(b.code)`
rendered as a `Bool` order: name ascending, then code ascending. -/
def currencyLe (a b : Currency) : Bool :=
  strLt a.name b.name || (a.name = b.name && strLe a.code b.code)

/-- The sort applied to every currency list the module returns. -/
def sortCurrencies (l : List Currency) : List Currency :=
  l.insertionSort (fun a b => currencyLe a b = true)

/-- `normalizeCode`: `String(value ?? '').trim().toUpperCase()`. -/
def normalizeCode (v : Option Json) : String :=
  strToUpper (strTrim (jsToString ((nco v (some (Json.str ""))).getD (Json.str ""))))

/-- `addCandidate`: validate the normalized code against the pattern
and insert `{code, name, symbol}` into the accumulation table, where
`name = String(nameRaw ?? code)`. -/
def addCandidate (table : List (String × Currency))
    (codeRaw nameRaw symbolRaw : Option Json) : List (String × Currency) :=
  let code := normalizeCode codeRaw
  if isCode code then
    let name := if isNullish nameRaw then code else jsToString (nameRaw.getD Json.null)
    upsert table code ⟨code, name, symbolRaw⟩
  else table

/-- First non-nullish among the fields `keys` of `v` (a `??` chain). -/
def fieldChain (v : Json) : List String → Option Json
  | [] => none
  | k :: ks => nco (jget v k) (fieldChain v ks)

/-- `x ?? {}` as applied to a record candidate. -/
def orEmptyObj : Json → Json
  | .null => Json.obj []
  | j => j

/-- The code fields probed on a record, in priority order. -/
def codeFields : List String := ["short_code", "code", "iso_code", "ticker", "currency"]

/-- The name fields probed on a record, in priority order. -/
def nameFields : List String := ["name", "currency_name", "fullName", "currency", "label"]

/-- The symbol fields probed on a record, in priority order. -/
def symbolFields : List String := ["symbol", "symbol_native", "sign"]

/-- Processing of one element of an array-shaped candidate source. -/
def processArrayItem (table : List (String × Currency)) (item : Json) :
    List (String × Currency) :=
  let v := orEmptyObj item
  let code := fieldChain v codeFields
  let name := nco (fieldChain v nameFields) code
  let symbol := fieldChain v symbolFields
  if truthyOpt code && truthyOpt name then addCandidate table code name symbol else table

/-- Processing of one `[key, value]` entry of an object-shaped source. -/
def processMapEntry (table : List (String × Currency)) (key : String) (value : Json) :
    List (String × Currency) :=
  match value with
  | .str s =>
    if isCode key then addCandidate table (some (.str key)) (some (.str s)) none else table
  | _ =>
    let v := orEmptyObj value
    let code := nco (fieldChain v codeFields) (if isCode key then some (.str key) else none)
    let name := nco (fieldChain v nameFields) code
    let symbol := fieldChain v symbolFields
    if truthyOpt code && truthyOpt name then addCandidate table code name symbol else table

/-- Processing of one probed source location (skipped unless it is an
array or a plain object, per `!source || typeof source !== 'object'`). -/
def processSource (table : List (String × Currency)) (s : Option Json) :
    List (String × Currency) :=
  match s with
  | some (.arr xs) => xs.foldl processArrayItem table
  | some (.obj fields) =>
    (objEntries fields).foldl (fun t p => processMapEntry t p.1 p.2) table
  | _ => table

/-- The seven probed candidate locations, in order. -/
def sourcesOf (raw : Json) (type : String) : List (Option Json) :=
  [ jgetOpt (jget raw "response") "currencies"
  , jgetOpt (jget raw "response") type
  , jget raw "currencies"
  , jgetOpt (jget raw "data") "currencies"
  , jgetOpt (jget raw "data") type
  , jget raw "response"
  , some raw ]

/-- `parseCurrenciesJSON`: accumulate candidates across all probed
sources (last write per code wins), then sort by name then code. -/
def parseCurrenciesJSON (raw : Json) (type : String) : List Currency :=
  sortCurrencies (((sourcesOf raw type).foldl processSource []).map (·.2))

/-!  ### Locale name backfill (`currencyNames`)  -/

/-- The ambient `Intl.DisplayNames` capability: whether it is available
at all, and the localized display name for a code (`none` = the lookup
returns `undefined`).  The resolver is total: lookups do not throw. -/
structure NameResolver where
  supported : Bool
  resolve : String → Option String

/-- `currencyNames`: keep a meaningful name, otherwise prefer the
localized name, falling back to the existing name.  If the capability
is unavailable the list is returned unchanged. -/
def currencyNames (r : NameResolver) (currencies : List Currency) : List Currency :=
  if r.supported then
    currencies.map (fun c =>
      let hasMeaningfulName := c.name ≠ "" && strToUpper c.name ≠ c.code
      let finalName :=
        if hasMeaningfulName then c.name
        else ((r.resolve c.code).getD c.name)
      { c with name := finalName })
  else currencies

/-!  ### Currency Cache (`getCurrencies`)  -/

/-- What `getCurrencies` produces: either the cached `items` array is
returned as-is (raw parsed JSON values, no fetch performed), or a fresh
normalized list is fetched, sorted, written back to the cache and
returned. -/
inductive GetCurrenciesResult where
  | cacheHit (items : List Json)
  | fetched (items : List Currency)

/-- The cache-read branch of `getCurrencies`: `some items` exactly when
a stored entry parses, destructures, is fresh
(`Date.now() - at < ONE_DAY`, 24 h in ms) and `looksValid`
(a non-empty array whose every element's `code` passes the pattern test
after the `RegExp.test` string coercion).  `cached`: `none` = no usable
stored string, `some none` = `JSON.parse` throws (caught), `some (some j)`
= the parsed value. -/
def cacheLookup (cached : Option (Option Json)) (now : ℚ) : Option (List Json) :=
  match cached with
  | some (some j) =>
    (match j with
     | .null => none
     | _ =>
       match jget j "items" with
       | some (.arr items) =>
         if jsLtQ (jsSubQ now (jsToNumberOpt (jget j "at"))) 86400000
             && !items.isEmpty
             && items.all (fun x => isCode (jsToStringOpt (jget x "code")))
         then some items else none
       | _ => none)
  | _ => none

/-- The list synthesized from `/latest` when `/currencies` is degraded:
codes of the parsed rate map seeded with `USD`, deduplicated,
filtered by the pattern, names left equal to the codes. -/
def synthFromLatest (latest : Json) : List Currency :=
  ((dedupFirst ("USD" :: (parseRates latest).map (·.1))).filter (fun c => isCode c)).map
    (fun c => ⟨c, c, none⟩)

/-- `getCurrencies`: cache first; else normalize `/currencies`; if that
list has fewer than 5 entries fall back to synthesizing from `/latest`
(keeping the previous list if that fetch fails); backfill names, sort,
write the cache, return.  Every fetch failure is caught here, so the
function is total. -/
def getCurrencies (cached : Option (Option Json)) (now : ℚ)
    (currenciesResp latestResp : Except Unit Json)
    (r : NameResolver) (type : String) : GetCurrenciesResult :=
  match cacheLookup cached now with
  | some items => .cacheHit items
  | none =>
    let list1 : List Currency :=
      match currenciesResp with
      | .ok raw => parseCurrenciesJSON raw type
      | .error _ => []
    let list2 : List Currency :=
      if list1.length < 5 then
        match latestResp with
        | .ok latest => synthFromLatest latest
        | .error _ => list1
      else list1
    .fetched (sortCurrencies (currencyNames r list2))

mutual

/-- The JSON value `JSON.parse(JSON.stringify(v))` produces: `NaN` and
infinities become `null` (nested `undefined` cannot occur in `Json`). -/
def stringifyNorm : Json → Json
  | .null => .null
  | .bool b => .bool b
  | .num (.fin q) => .num (.fin q)
  | .num _ => .null
  | .str s => .str s
  | .arr xs => .arr (stringifyNormList xs)
  | .obj fields => .obj (stringifyNormFields fields)

/-- `stringifyNorm` over array elements. -/
def stringifyNormList : List Json → List Json
  | [] => []
  | x :: xs => stringifyNorm x :: stringifyNormList xs

/-- `stringifyNorm` over object fields. -/
def stringifyNormFields : List (String × Json) → List (String × Json)
  | [] => []
  | (k, v) :: xs => (k, stringifyNorm v) :: stringifyNormFields xs

end

/-- The serialized form of one `Currency` as the cache write stores it
(`JSON.stringify` drops an `undefined` `symbol`). -/
def currencyToJson (c : Currency) : Json :=
  .obj ([("code", .str c.code), ("name", .str c.name)] ++
    (match c.symbol with
     | none => []
     | some s => [("symbol", stringifyNorm s)]))

/-- The parsed form of a whole cache entry `{at, items}` as written by
`getCurrencies` at time `at`. -/
def cacheEntryJson (at_ : ℚ) (items : List Currency) : Json :=
  .obj [("at", .num (.fin at_)), ("items", .arr (items.map currencyToJson))]

/-!  ### Conversion Engine (`convertOnce` / `convertViaUSD`)  -/

/-- The errors a conversion can settle with: a transport error
propagating out of a `get` call, or the fallback's own
`Error('Fallback rates unavailable.')`. -/
inductive ConvertError where
  | transport
  | fallbackUnavailable
deriving DecidableEq, Repr

/-- `{result, rate?, meta}` as returned by the conversion engine. -/
structure ConvertResponse where
  result : JsNum
  rate : Option JsNum
  meta : Json

/-- The `symbols` query parameter the fallback passes to `/latest`:
the non-USD sides, deduplicated, joined by commas; omitted (`none`)
when empty (`symbols ? { symbols } : {}`). -/
def latestSymbolsParam (fromC toC : String) : Option String :=
  let needed := (if fromC ≠ "USD" then [fromC] else []) ++ (if toC ≠ "USD" then [toC] else [])
  let symbols := String.intercalate "," (dedupFirst needed)
  if symbols = "" then none else some symbols

/-- The `meta` of a fallback result: `{fallback: true, base: 'USD', rates}`. -/
def fallbackMeta (rates : List (String × ℚ)) : Json :=
  .obj [("fallback", .bool true), ("base", .str "USD"),
        ("rates", .obj (rates.map (fun p => (p.1, .num (.fin p.2)))))]

/-- A side's USD rate: 1 when the side is USD, else the map entry. -/
def resolveUsdRate (rates : List (String × ℚ)) (side : String) : Option ℚ :=
  if side = "USD" then some 1 else lookupRate rates side

/-- `convertViaUSD`: fetch `/latest` for the needed symbols, resolve
both sides against USD, fail when either is missing, otherwise return
the cross-rate result.  `fetchLatest` maps the `symbols` parameter of
the one `get('latest', …)` call to its outcome. -/
def convertViaUSD (fetchLatest : Option String → Except Unit Json)
    (fromC toC : String) (amount : ℚ) : Except ConvertError ConvertResponse :=
  match fetchLatest (latestSymbolsParam fromC toC) with
  | .error _ => .error .transport
  | .ok latest =>
    let rates := parseRates latest
    match resolveUsdRate rates fromC, resolveUsdRate rates toC with
    | some fromRateUSD, some toRateUSD =>
      let perUnitRate := jsDivQ toRateUSD fromRateUSD
      .ok ⟨jsMulQ amount perUnitRate, some perUnitRate, fallbackMeta rates⟩
    | _, _ => .error .fallbackUnavailable

/-- The two network interactions of one `convertOnce` call. -/
structure ConvertEnv where
  convertResp : Except Unit Json
  fetchLatest : Option String → Except Unit Json

/-- The numeric result extracted from the primary `/convert` payload:
`Number(json?.result ?? json?.response?.value ?? json?.response?.result
?? json?.data?.result ?? json?.value)`. -/
def extractConvertResult (json : Json) : JsNum :=
  jsToNumberOpt
    (nco (jget json "result")
      (nco (jgetOpt (jget json "response") "value")
        (nco (jgetOpt (jget json "response") "result")
          (nco (jgetOpt (jget json "data") "result") (jget json "value")))))

/-- `convertOnce`: normalize the inputs, try `/convert`; on a finite
extracted result return it with `rate = amount ? result/amount :
undefined`; on any failure or a non-finite result fall back to
`convertViaUSD`.  `amount` is a finite number in this embedding, so
`Number(params.amount) || 0` is the identity on it. -/
def convertOnce (env : ConvertEnv) (pfrom pto : String) (amount : ℚ) :
    Except ConvertError ConvertResponse :=
  let fromC := strToUpper (strTrim pfrom)
  let toC := strToUpper (strTrim pto)
  match env.convertResp with
  | .ok json =>
    (match extractConvertResult json with
     | .fin r => .ok ⟨.fin r, if amount = 0 then none else some (.fin (r / amount)), json⟩
     | _ => convertViaUSD env.fetchLatest fromC toC amount)
  | .error _ => convertViaUSD env.fetchLatest fromC toC amount

/-!  ### Timeseries Engine (`getTimeseries`)

Dates are modelled in UTC with the proleptic Gregorian calendar:
`new Date("YYYY-MM-DD")` parses strict ISO date-only strings as UTC,
`getDate`/`setDate` stepping is calendar-day increment, and
`toISOString().slice(0, 10)` is zero-padded `YYYY-MM-DD` formatting. -/

/-- A calendar date. -/
structure YMD where
  y : Nat
  m : Nat
  d : Nat
deriving DecidableEq, Repr

/-- Gregorian leap-year rule. -/
def isLeap (y : Nat) : Bool :=
  (y % 4 = 0 && y % 100 ≠ 0) || y % 400 = 0

/-- Days in a month. -/
def daysInMonth (y m : Nat) : Nat :=
  if m = 2 then (if isLeap y then 29 else 28)
  else if m = 4 ∨ m = 6 ∨ m = 9 ∨ m = 11 then 30
  else 31

/-- Strict `YYYY-MM-DD` parsing (`new Date(s)` for date-only ISO
strings; anything else is out of this embedding's scope and yields an
invalid date, making the day loop run zero times). -/
def parseYMD (s : String) : Option YMD :=
  match s.data with
  | [a, b, c, d, '-', e, f, '-', g, h] =>
    (match digitVal a, digitVal b, digitVal c, digitVal d,
           digitVal e, digitVal f, digitVal g, digitVal h with
     | some a', some b', some c', some d', some e', some f', some g', some h' =>
       let y := 1000 * a' + 100 * b' + 10 * c' + d'
       let m := 10 * e' + f'
       let dd := 10 * g' + h'
       if 1 ≤ m ∧ m ≤ 12 ∧ 1 ≤ dd ∧ dd ≤ daysInMonth y m then some ⟨y, m, dd⟩ else none
     | _, _, _, _, _, _, _, _ => none)
  | _ => none

/-- One calendar day later (`d.setDate(d.getDate() + 1)`). -/
def nextDay (x : YMD) : YMD :=
  if x.d < daysInMonth x.y x.m then ⟨x.y, x.m, x.d + 1⟩
  else if x.m < 12 then ⟨x.y, x.m + 1, 1⟩
  else ⟨x.y + 1, 1, 1⟩

/-- Chronological comparison of two dates (`Date` timestamp order,
which for calendar dates is lexicographic on year, month, day). -/
def ymdLe (a b : YMD) : Bool :=
  a.y < b.y || (a.y = b.y && (a.m < b.m || (a.m = b.m && a.d ≤ b.d)))

/-- The strict counterpart of `ymdLe`, as a proposition. -/
def ymdLt (a b : YMD) : Prop :=
  a.y < b.y ∨ (a.y = b.y ∧ (a.m < b.m ∨ (a.m = b.m ∧ a.d < b.d)))

/-- `toISOString().slice(0, 10)`: zero-padded `YYYY-MM-DD`
(years of the dates this development formats are at most 9999). -/
def formatYMD (x : YMD) : String :=
  ⟨[digitChar (x.y / 1000), digitChar (x.y / 100), digitChar (x.y / 10), digitChar x.y,
    '-', digitChar (x.m / 10), digitChar x.m, '-', digitChar (x.d / 10), digitChar x.d]⟩

/-- One calendar day earlier; the inverse of `nextDay` for exactly
valid dates of year at least 1 (this development models the proleptic
Gregorian calendar from year 1 on). -/
def prevDay (x : YMD) : YMD :=
  if 1 < x.d then ⟨x.y, x.m, x.d - 1⟩
  else if 1 < x.m then ⟨x.y, x.m - 1, daysInMonth x.y (x.m - 1)⟩
  else ⟨x.y - 1, 12, 31⟩

/-- Shift an instant — a UTC calendar date paired with a minute of
that day — by `c` minutes, for `|c|` at most one day (every real
timezone offset is within ±14 h). -/
def shiftMinutes (c : ℤ) (x : YMD × Nat) : YMD × Nat :=
  let t : ℤ := (x.2 : ℤ) + c
  if t < 0 then (prevDay x.1, (t + 1440).toNat)
  else if t < 1440 then (x.1, t.toNat)
  else (nextDay x.1, (t - 1440).toNat)

/-- Chronological comparison of instants (`Date` `<=` compares
timestamps, i.e. date-then-minute lexicographically). -/
def instantLe (a b : YMD × Nat) : Bool :=
  a.1.y < b.1.y || (a.1.y = b.1.y && (a.1.m < b.1.m || (a.1.m = b.1.m &&
    (a.1.d < b.1.d || (a.1.d = b.1.d && a.2 ≤ b.2)))))

/-- The runtime timezone capability that `Date`'s local-time accessors
consult: `toLocal` maps a UTC instant to the local wall-clock fields
(ECMA-262 `LocalTime`), `toUtc` maps local wall-clock fields back to a
UTC instant (ECMA-262 `UTC`, with the implementation's disambiguation
around transitions). -/
structure TimeZone where
  toLocal : YMD × Nat → YMD × Nat
  toUtc : YMD × Nat → YMD × Nat

/-- A fixed-offset timezone: `c` minutes east of UTC, no DST. `c = 0`
is the UTC runtime (`TZ=UTC`). -/
def fixedOffset (c : ℤ) : TimeZone :=
  ⟨shiftMinutes c, shiftMinutes (-c)⟩

/-- The loop step `d.setDate(d.getDate() + 1)`: read the LOCAL
calendar day, advance it by one on the local calendar keeping the
local time of day, and convert back to a UTC instant. -/
def dateStep (tz : TimeZone) (u : YMD × Nat) : YMD × Nat :=
  let l := tz.toLocal u
  tz.toUtc (nextDay l.1, l.2)

/-- The day loop `for (let d = new Date(start); d <= end;
d.setDate(d.getDate() + 1)) days.push(d.toISOString().slice(0, 10))`:
the pushed string is the UTC date of the current instant, the guard
compares instants, and the step advances one LOCAL day.  `fuel` only
bounds the recursion; it is chosen large enough that the guard, not
the fuel, ends the loop. -/
def buildDaysTz (tz : TimeZone) (u : YMD × Nat) (endD : YMD) (fuel : Nat) : List String :=
  match fuel with
  | 0 => []
  | fuel + 1 =>
    if instantLe u (endD, 0) then
      formatYMD u.1 :: buildDaysTz tz (dateStep tz u) endD fuel
    else []

/-- The day enumeration a fixed-offset timezone produces (proved below
to coincide with `buildDaysTz (fixedOffset c)` from a midnight start):
stepping one local day then reading the UTC date is plain calendar
stepping when the offset never changes. -/
def buildDays (x endD : YMD) (fuel : Nat) : List String :=
  match fuel with
  | 0 => []
  | fuel + 1 => if ymdLe x endD then formatYMD x :: buildDays (nextDay x) endD fuel else []

/-- America/New_York around its 2024-03-10 spring-forward: EST
(UTC−5, offset −300 min) for UTC instants before 2024-03-10 07:00 and
for local wall clocks before 2024-03-10 02:00, EDT (UTC−4, −240 min)
after.  Only instants near the transition are exercised. -/
def newYork2024 : TimeZone :=
  ⟨fun u => if instantLe u (⟨2024, 3, 10⟩, 419) then shiftMinutes (-300) u
            else shiftMinutes (-240) u,
   fun l => if instantLe l (⟨2024, 3, 10⟩, 119) then shiftMinutes 300 l
            else shiftMinutes 240 l⟩

/-- An over-approximation of the number of loop iterations: every
iterated date has a year in `[start.y, end.y]`, a month in `[1, 12]`
and a day in `[1, 31]`. -/
def daysFuel (startD endD : YMD) : Nat :=
  (endD.y + 1 - startD.y) * 400 + 400

/-- A day's samples: one point `{date, rate}`. -/
structure TimeseriesPoint where
  date : String
  rate : JsNum

/-- The two kinds of network interaction of one `getTimeseries` call:
the single `/timeseries` request and the per-day `/historical`
requests (indexed by the `date` parameter). -/
structure TimeseriesEnv where
  timeseriesResp : Except Unit Json
  historicalResp : String → Except Unit Json

/-- The date-keyed rate table of the batch payload:
`json?.rates ?? json?.data?.rates ?? json?.response?.rates ?? {}`. -/
def batchBuckets (json : Json) : Json :=
  (nco (jget json "rates")
    (nco (jgetOpt (jget json "data") "rates")
      (jgetOpt (jget json "response") "rates"))).getD (.obj [])

/-- A canonical array-index string — `"0"`, or digits with no leading
zero — the only property names under which JS indexed collections hold
their elements. -/
def parseIndex (k : String) : Option Nat :=
  match k.data with
  | [] => none
  | ['0'] => some 0
  | c :: cs =>
    if ('1' ≤ c ∧ c ≤ '9') ∧ cs.all (fun x => '0' ≤ x && x ≤ '9') then
      some (valDigits (c :: cs))
    else none

/-- `v[k]` as the batch path evaluates it: an own object property, an
array element, or a string character (JS boxes primitives for
property access; numbers and booleans have no own properties). -/
def jsIndexGet (v : Json) (k : String) : Option Json :=
  match v with
  | .obj _ => jget v k
  | .arr xs =>
    (match parseIndex k with
     | some i => xs.get? i
     | none => none)
  | .str s =>
    (match parseIndex k with
     | some i => (s.data.get? i).map (fun c => Json.str ⟨[c]⟩)
     | none => none)
  | _ => none

/-- The keys `Object.keys(buckets)` enumerates: an object's own keys,
and for an array or string its element indices `"0"`, `"1"`, …
(numbers, booleans and null contribute none; `buckets` is never null
thanks to the trailing `?? {}`). -/
def bucketKeys : Json → List String
  | .obj fields => objKeys fields
  | .arr xs => (List.range xs.length).map natToString
  | .str s => (List.range s.data.length).map natToString
  | _ => []

/-- One batch date's contribution: the day's bucket (`buckets[d] || {}`),
each side resolved against USD (1 when that side is USD, else the
day's entry provided `typeof` says number), a point only if both sides
resolve. -/
def batchPoint (buckets : Json) (fromC toC : String) (d : String) : Option TimeseriesPoint :=
  let day := match jsIndexGet buckets d with
    | some v => if truthy v then v else .obj []
    | none => .obj []
  let rFrom : Option JsNum :=
    if fromC = "USD" then some (.fin 1)
    else match jsIndexGet day fromC with
      | some (.num n) => some n
      | _ => none
  let rTo : Option JsNum :=
    if toC = "USD" then some (.fin 1)
    else match jsIndexGet day toC with
      | some (.num n) => some n
      | _ => none
  match rFrom, rTo with
  | some rf, some rt => some ⟨d, jsDivNum rt rf⟩
  | _, _ => none

/-- The series the batch path computes: dates in ascending sorted key
order, incomplete dates skipped. -/
def batchSeries (json : Json) (fromC toC : String) : List TimeseriesPoint :=
  let buckets := batchBuckets json
  let dates := (bucketKeys buckets).insertionSort (fun a b => strLe a b = true)
  dates.filterMap (batchPoint buckets fromC toC)

/-- One fallback day's contribution: `/historical` fetched for that
day, rates normalized, both sides resolved; a failing fetch or an
incomplete day contributes nothing. -/
def historicalPoint (env : TimeseriesEnv) (fromC toC day : String) : Option TimeseriesPoint :=
  match env.historicalResp day with
  | .error _ => none
  | .ok json =>
    let rates := parseRates json
    match resolveUsdRate rates fromC, resolveUsdRate rates toC with
    | some rf, some rt => some ⟨day, jsDivQ rt rf⟩
    | _, _ => none

/-- `getTimeseries`: one `/timeseries` request; if it fails or yields
zero points, enumerate the days the runtime-timezone-dependent day
loop walks through from `start` (a UTC-midnight instant) and query
`/historical` per day; either way the returned series is sorted by
date. -/
def getTimeseries (tz : TimeZone) (env : TimeseriesEnv) (pfrom pto start endS : String) :
    List TimeseriesPoint :=
  let fromC := strToUpper (strTrim pfrom)
  let toC := strToUpper (strTrim pto)
  let primary : List TimeseriesPoint :=
    match env.timeseriesResp with
    | .ok json => batchSeries json fromC toC
    | .error _ => []
  match primary with
  | p :: ps => p :: ps
  | [] =>
    let days : List String :=
      match parseYMD start, parseYMD endS with
      | some s, some e => buildDaysTz tz (s, 0) e (daysFuel s e)
      | _, _ => []
    let results := days.filterMap (historicalPoint env fromC toC)
    results.insertionSort (fun a b => strLe a.date b.date = true)

/-- The invariant every accumulation table maintains: unique keys, and
every stored currency carries its own (pattern-valid) key as `code`. -/
def TableInv (t : List (String × Currency)) : Prop :=
  (t.map (·.1)).Nodup ∧ ∀ p ∈ t, p.2.code = p.1 ∧ isCode p.1 = true

/-- Strictly ascending dates, as a pairwise property of a point list. -/
def StrictlyAscendingDates (l : List TimeseriesPoint) : Prop :=
  l.Pairwise (fun a b => strLt a.date b.date = true)

/-- The validity envelope every iterated date satisfies. -/
def YMDValid (x : YMD) : Prop := 1 ≤ x.m ∧ x.m ≤ 12 ∧ 1 ≤ x.d ∧ x.d ≤ 31

/-- Exact calendar validity: the day also fits its month. -/
def YMDExact (x : YMD) : Prop :=
  1 ≤ x.m ∧ x.m ≤ 12 ∧ 1 ≤ x.d ∧ x.d ≤ daysInMonth x.y x.m

/-!  ## Order infrastructure  -/

theorem lexLt_trans : ∀ a b c, lexLt a b = true → lexLt b c = true → lexLt a c = true := by
  intro a
  induction a with
  | nil => intro b c hab hbc; cases b <;> cases c <;> simp_all [lexLt]
  | cons x xs ih =>
    intro b c hab hbc
    match b, c with
    | [], _ => simp [lexLt] at hab
    | _ :: _, [] => simp [lexLt] at hbc
    | y :: ys, z :: zs =>
      simp only [lexLt] at hab hbc ⊢
      by_cases h1 : x.toNat < y.toNat <;> by_cases h2 : y.toNat < z.toNat <;>
        by_cases h3 : x.toNat < z.toNat <;> by_cases h4 : x.toNat = z.toNat <;>
        simp [h1, h2, h3, h4] at hab hbc ⊢ <;> try omega
      all_goals {
        have h5 : x.toNat = y.toNat := by omega
        have h6 : y.toNat = z.toNat := by omega
        simp [h5, h6] at hab hbc
        exact ih ys zs hab hbc }

theorem lexLt_connex : ∀ a b, lexLt a b = false → lexLt b a = false → a = b := by
  intro a
  induction a with
  | nil => intro b h1 h2; cases b <;> simp_all [lexLt]
  | cons x xs ih =>
    intro b h1 h2
    match b with
    | [] => simp [lexLt] at h2
    | y :: ys =>
      simp only [lexLt] at h1 h2
      by_cases h3 : x.toNat < y.toNat <;> by_cases h4 : y.toNat < x.toNat <;>
        simp [h3, h4] at h1 h2 <;> try omega
      have h5 : x.toNat = y.toNat := by omega
      simp [h5] at h1 h2
      have := ih ys h1 h2
      have hx : x = y := Char.ext (UInt32.ext h5)
      rw [hx, this]

theorem lexLt_irrefl : ∀ l, lexLt l l = false := by
  intro l
  induction l with
  | nil => rfl
  | cons x xs ih => simp [lexLt, ih]

theorem lexLt_asymm : ∀ a b, lexLt a b = true → lexLt b a = false := by
  intro a b hab
  by_contra h
  have hba : lexLt b a = true := by revert h; cases lexLt b a <;> simp
  have := lexLt_trans a b a hab hba
  rw [lexLt_irrefl] at this
  exact Bool.noConfusion this

theorem string_data_eq {a b : String} (h : a.data = b.data) : a = b := by
  cases a; cases b; exact congrArg String.mk h

theorem strLt_trans {a b c : String} (h1 : strLt a b = true) (h2 : strLt b c = true) :
    strLt a c = true :=
  lexLt_trans _ _ _ h1 h2

theorem strLt_connex {a b : String} (h1 : strLt a b = false) (h2 : strLt b a = false) :
    a = b :=
  string_data_eq (lexLt_connex _ _ h1 h2)

theorem strLt_asymm {a b : String} (h : strLt a b = true) : strLt b a = false :=
  lexLt_asymm _ _ h

theorem strLt_irrefl (a : String) : strLt a a = false := lexLt_irrefl _

theorem strLe_total (a b : String) : strLe a b = true ∨ strLe b a = true := by
  unfold strLe
  rcases Bool.eq_false_or_eq_true (strLt b a) with h | h
  · right; simp [strLt_asymm h]
  · left; simp [h]

theorem strLe_trans {a b c : String} (h1 : strLe a b = true) (h2 : strLe b c = true) :
    strLe a c = true := by
  unfold strLe at *
  have hba : strLt b a = false := by simpa using h1
  have hcb : strLt c b = false := by simpa using h2
  suffices h : strLt c a = false by simp [h]
  rcases Bool.eq_false_or_eq_true (strLt c a) with h | h
  · exfalso
    rcases Bool.eq_false_or_eq_true (strLt b c) with hbc | hbc
    · have := strLt_trans hbc h
      rw [hba] at this; exact Bool.noConfusion this
    · have hbceq : b = c := strLt_connex hbc hcb
      rw [← hbceq] at h
      rw [hba] at h; exact Bool.noConfusion h
  · exact h

theorem strLe_antisymm {a b : String} (h1 : strLe a b = true) (h2 : strLe b a = true) :
    a = b := by
  unfold strLe at h1 h2
  have hba : strLt b a = false := by simpa using h1
  have hab : strLt a b = false := by simpa using h2
  exact strLt_connex hab hba

theorem strLt_of_le_of_ne {a b : String} (h1 : strLe a b = true) (h2 : a ≠ b) :
    strLt a b = true := by
  unfold strLe at h1
  have hba : strLt b a = false := by simpa using h1
  rcases Bool.eq_false_or_eq_true (strLt a b) with hab | hab
  · exact hab
  · exact absurd (strLt_connex hab hba) h2

theorem strLt_ne {a b : String} (h : strLt a b = true) : a ≠ b := by
  intro he; subst he; rw [strLt_irrefl] at h; exact Bool.noConfusion h

theorem currencyLe_total (a b : Currency) : currencyLe a b = true ∨ currencyLe b a = true := by
  unfold currencyLe
  rcases Bool.eq_false_or_eq_true (strLt a.name b.name) with h | h
  · left; simp [h]
  · rcases Bool.eq_false_or_eq_true (strLt b.name a.name) with h2 | h2
    · right; simp [h2]
    · have he : a.name = b.name := strLt_connex h h2
      rcases strLe_total a.code b.code with h3 | h3
      · left; simp [h, he, h3]
      · right; simp [h2, he.symm, h3]

theorem currencyLe_trans {a b c : Currency} (h1 : currencyLe a b = true)
    (h2 : currencyLe b c = true) : currencyLe a c = true := by
  unfold currencyLe at *
  rcases Bool.eq_false_or_eq_true (strLt a.name b.name) with hab | hab
  · rcases Bool.eq_false_or_eq_true (strLt b.name c.name) with hbc | hbc
    · simp [strLt_trans hab hbc]
    · simp [hbc] at h2
      rw [← h2.1]; simp [hab]
  · simp [hab] at h1
    rcases Bool.eq_false_or_eq_true (strLt b.name c.name) with hbc | hbc
    · rw [h1.1]; simp [hbc]
    · simp [hbc] at h2
      simp [hab, hbc, h1.1.trans h2.1, strLe_trans h1.2 h2.2]

theorem sortCurrencies_sorted (l : List Currency) :
    (sortCurrencies l).Pairwise (fun a b => currencyLe a b = true) := by
  haveI : IsTotal Currency (fun a b => currencyLe a b = true) := ⟨currencyLe_total⟩
  haveI : IsTrans Currency (fun a b => currencyLe a b = true) :=
    ⟨fun _ _ _ h1 h2 => currencyLe_trans h1 h2⟩
  exact List.sorted_insertionSort _ l

theorem sortCurrencies_perm (l : List Currency) : List.Perm (sortCurrencies l) l :=
  List.perm_insertionSort _ l

theorem sortStrings_sorted (l : List String) :
    (l.insertionSort (fun a b => strLe a b = true)).Pairwise (fun a b => strLe a b = true) := by
  haveI : IsTotal String (fun a b => strLe a b = true) := ⟨strLe_total⟩
  haveI : IsTrans String (fun a b => strLe a b = true) :=
    ⟨fun _ _ _ h1 h2 => strLe_trans h1 h2⟩
  exact List.sorted_insertionSort _ l

/-- A `≤`-sorted list without duplicates is strictly ascending. -/
theorem pairwise_strLt_of_sorted_nodup {l : List String}
    (hs : l.Pairwise (fun a b => strLe a b = true)) (hn : l.Nodup) :
    l.Pairwise (fun a b => strLt a b = true) := by
  have := hs.and hn
  exact this.imp (fun h => strLt_of_le_of_ne h.1 h.2)

/-!  ## Table invariants (accumulation by normalized code)  -/

theorem upsert_map_fst_of_mem {α : Type} (l : List (String × α)) (k : String) (v : α)
    (h : l.any (fun p => p.1 = k) = true) :
    (upsert l k v).map (·.1) = l.map (·.1) := by
  unfold upsert
  rw [if_pos h]
  rw [List.map_map]
  apply List.map_congr_left
  intro p hp
  show (if p.1 = k then (k, v) else p).1 = p.1
  by_cases hpk : p.1 = k
  · rw [if_pos hpk]; exact hpk.symm
  · rw [if_neg hpk]

theorem upsert_inv (t : List (String × Currency)) (k : String) (c : Currency)
    (hinv : TableInv t) (hc : c.code = k) (hk : isCode k = true) :
    TableInv (upsert t k c) := by
  obtain ⟨hnodup, hall⟩ := hinv
  unfold upsert
  by_cases h : t.any (fun p => p.1 = k) = true
  · rw [if_pos h]
    constructor
    · have := upsert_map_fst_of_mem t k c h
      unfold upsert at this
      rw [if_pos h] at this
      rw [this]; exact hnodup
    · intro p hp
      rw [List.mem_map] at hp
      obtain ⟨q, hq, hqe⟩ := hp
      by_cases hqk : q.1 = k
      · simp [hqk] at hqe
        rw [← hqe]; exact ⟨hc, hk⟩
      · simp [hqk] at hqe
        rw [← hqe]; exact hall q hq
  · rw [if_neg h]
    constructor
    · rw [List.map_append]
      simp only [List.map_cons, List.map_nil]
      rw [List.nodup_append]
      refine ⟨hnodup, List.nodup_singleton k, ?_⟩
      intro a ha hb
      simp at hb
      subst hb
      rw [List.any_eq_true] at h
      rw [List.mem_map] at ha
      obtain ⟨q, hq, hqe⟩ := ha
      exact h ⟨q, hq, by simp [hqe]⟩
    · intro p hp
      rw [List.mem_append] at hp
      rcases hp with hp | hp
      · exact hall p hp
      · simp at hp
        rw [hp]; exact ⟨hc, hk⟩

theorem addCandidate_inv (t : List (String × Currency)) (codeRaw nameRaw symbolRaw : Option Json)
    (hinv : TableInv t) : TableInv (addCandidate t codeRaw nameRaw symbolRaw) := by
  unfold addCandidate
  by_cases h : isCode (normalizeCode codeRaw) = true
  · rw [if_pos h]
    exact upsert_inv _ _ _ hinv rfl h
  · rw [if_neg h]
    exact hinv

theorem apply_ite_inv {α : Sort u_1} {P : α → Prop} {c : Prop} [Decidable c] {a b : α}
    (ha : P a) (hb : P b) : P (if c then a else b) := by
  by_cases h : c
  · rwa [if_pos h]
  · rwa [if_neg h]

theorem processArrayItem_inv (t : List (String × Currency)) (item : Json)
    (hinv : TableInv t) : TableInv (processArrayItem t item) := by
  unfold processArrayItem
  rcases item with _ | b | n | s | xs | fs <;>
    exact apply_ite_inv (addCandidate_inv _ _ _ _ hinv) hinv

theorem processMapEntry_inv (t : List (String × Currency)) (k : String) (v : Json)
    (hinv : TableInv t) : TableInv (processMapEntry t k v) := by
  unfold processMapEntry
  rcases v with _ | b | n | s | xs | fs <;>
    exact apply_ite_inv (addCandidate_inv _ _ _ _ hinv) hinv

theorem foldl_inv {α : Type} {P : List (String × Currency) → Prop}
    (f : List (String × Currency) → α → List (String × Currency))
    (hf : ∀ t a, P t → P (f t a)) :
    ∀ (l : List α) (t), P t → P (l.foldl f t) := by
  intro l
  induction l with
  | nil => intro t ht; exact ht
  | cons a rest ih => intro t ht; exact ih _ (hf t a ht)

theorem processSource_inv (t : List (String × Currency)) (s : Option Json)
    (hinv : TableInv t) : TableInv (processSource t s) := by
  unfold processSource
  rcases s with _ | j
  · exact hinv
  · rcases j with _ | b | n | s | xs | fs
    · exact hinv
    · exact hinv
    · exact hinv
    · exact hinv
    · exact foldl_inv processArrayItem (fun t a ht => processArrayItem_inv t a ht) xs t hinv
    · exact foldl_inv _ (fun t a ht => processMapEntry_inv t a.1 a.2 ht) (objEntries fs) t hinv

theorem parse_table_inv (raw : Json) (type : String) :
    TableInv ((sourcesOf raw type).foldl processSource []) := by
  apply foldl_inv processSource (fun t s ht => processSource_inv t s ht)
  exact ⟨List.nodup_nil, by intro p hp; exact absurd hp (List.not_mem_nil p)⟩

/-!  ## Claims  -/

/-- **C3** — For every JSON payload and requested category, the list
returned by the currency-list normalizer contains at most one entry per
code, every entry's code matches `^[A-Z]{3,5}$`, and the list is sorted
by name then code ascending.  (It holds for arbitrary payloads, hence
in particular for array-of-objects, object-of-strings,
object-of-objects and mixed shapes.) -/
theorem parseCurrenciesJSON_invariants (raw : Json) (type : String) :
    ((parseCurrenciesJSON raw type).map (·.code)).Nodup
    ∧ (∀ c ∈ parseCurrenciesJSON raw type, isCode c.code = true)
    ∧ (parseCurrenciesJSON raw type).Pairwise (fun a b => currencyLe a b = true) := by
  obtain ⟨hnodup, hall⟩ := parse_table_inv raw type
  have hvals :
      ((((sourcesOf raw type).foldl processSource []).map (·.2)).map (·.code)) =
        ((sourcesOf raw type).foldl processSource []).map (·.1) := by
    rw [List.map_map]
    apply List.map_congr_left
    intro p hp
    exact (hall p hp).1
  have hperm := sortCurrencies_perm (((sourcesOf raw type).foldl processSource []).map (·.2))
  refine ⟨?_, ?_, ?_⟩
  · have := (hperm.map (·.code)).nodup_iff
    unfold parseCurrenciesJSON
    rw [this, hvals]
    exact hnodup
  · intro c hc
    have hmem : c ∈ (((sourcesOf raw type).foldl processSource []).map (·.2)) :=
      hperm.mem_iff.mp hc
    obtain ⟨p, hp, he⟩ := List.mem_map.mp hmem
    rw [← he, (hall p hp).1]
    exact (hall p hp).2
  · exact sortCurrencies_sorted _

theorem mem_upsert {α : Type} (l : List (String × α)) (k : String) (v : α)
    (p : String × α) (hp : p ∈ upsert l k v) : p ∈ l ∨ p = (k, v) := by
  unfold upsert at hp
  split at hp
  · rw [List.mem_map] at hp
    obtain ⟨q, hq, hqe⟩ := hp
    by_cases hqk : q.1 = k
    · right; rw [← hqe]; simp [hqk]
    · left; rw [← hqe]; simp [hqk]; exact hq
  · rw [List.mem_append] at hp
    rcases hp with hp | hp
    · left; exact hp
    · right; simpa using hp

theorem parseRates_fold_mem (l : List (String × Json)) (acc : List (String × ℚ))
    (p : String × ℚ)
    (hp : p ∈ l.foldl
      (fun out q =>
        match q.2 with
        | .num (.fin v) => upsert out (strToUpper q.1) v
        | _ => out) acc) :
    p ∈ acc ∨ ∃ k0, (k0, Json.num (.fin p.2)) ∈ l ∧ p.1 = strToUpper k0 := by
  induction l generalizing acc with
  | nil => left; exact hp
  | cons e rest ih =>
    rw [List.foldl_cons] at hp
    rcases ih _ hp with hq | ⟨k0, hk0, he⟩
    · rcases he : e.2 with _ | b | n | s | xs | fs
      all_goals rw [he] at hq
      case num =>
        rcases n with q' | _ | _ | _
        · rcases mem_upsert _ _ _ _ hq with hmem | heq
          · left; exact hmem
          · right
            refine ⟨e.1, ?_, by rw [heq]⟩
            rw [heq]
            simp only [List.mem_cons]
            left
            rw [← he]
        all_goals left; exact hq
      all_goals left; exact hq
    · right; exact ⟨k0, List.mem_cons_of_mem _ hk0, he⟩

/-- **C9 (counterexample)** — The rate-map normalizer keeps any finite
value: a payload with a negative rate yields a map entry whose value is
not positive, refuting "every value … is a positive finite number". -/
theorem parseRates_positive_counterexample :
    ("EUR", (-2 : ℚ)) ∈
      parseRates (Json.obj [("rates", Json.obj [("eur", Json.num (.fin (-2)))])])
    ∧ ¬ (0 < (-2 : ℚ)) := by
  constructor
  · decide
  · norm_num

/-- **C9 (amended)** — Every entry of a rate map produced by the Rate
Map Normalizer stems from an entry of the selected `rates` object whose
value is a *finite* number (not necessarily positive), stored under the
uppercased key; when no rates object is selected the normalizer returns
the empty mapping (and, being a total function, it never fails). -/
theorem parseRates_spec (json : Json) :
    (ratesSource json = none → parseRates json = [])
    ∧ ∀ p ∈ parseRates json, ∃ v k0, ratesSource json = some v
        ∧ (k0, Json.num (.fin p.2)) ∈ jsEntries v ∧ p.1 = strToUpper k0 := by
  constructor
  · intro h
    unfold parseRates
    rw [h]
  · intro p hp
    unfold parseRates at hp
    rcases hs : ratesSource json with _ | v
    · rw [hs] at hp
      exact absurd hp (List.not_mem_nil p)
    · rw [hs] at hp
      rcases parseRates_fold_mem (jsEntries v) [] p hp with hq | ⟨k0, hk0, he⟩
      · exact absurd hq (List.not_mem_nil p)
      · exact ⟨v, k0, rfl, hk0, he⟩

/-- **C9 (witness)** — Instantiating the amended claim at a payload
with no rates object: the normalizer returns the empty mapping. -/
theorem parseRates_spec_witness :
    ratesSource Json.null = none ∧ parseRates Json.null = [] :=
  ⟨rfl, (parseRates_spec Json.null).1 rfl⟩

/-- **C1** — Whenever the primary `convert` call fails or yields a
non-finite result, `convertOnce` falls back to the USD cross-rate:
it issues the `latest` request with exactly the non-USD sides as the
`symbols` parameter (its outcome depends on the fetch only at that
parameter), resolves each side's USD rate (1 for USD, else the map
entry), errors exactly when a required rate is missing, and otherwise
returns `result = amount * (toRateUSD / fromRateUSD)`,
`rate = toRateUSD / fromRateUSD` with the fallback metadata. -/
theorem convertOnce_fallback_spec (env : ConvertEnv) (pfrom pto : String) (amount : ℚ)
    (J : Json)
    (hfail : ∀ j, env.convertResp = Except.ok j → (extractConvertResult j).isFinite = false)
    (hlatest : env.fetchLatest (latestSymbolsParam (strToUpper (strTrim pfrom)) (strToUpper (strTrim pto))) =
      Except.ok J) :
    (convertOnce env pfrom pto amount =
      convertViaUSD env.fetchLatest (strToUpper (strTrim pfrom)) (strToUpper (strTrim pto)) amount)
    ∧ ((resolveUsdRate (parseRates J) (strToUpper (strTrim pfrom)) = none
        ∨ resolveUsdRate (parseRates J) (strToUpper (strTrim pto)) = none) →
        convertOnce env pfrom pto amount = Except.error ConvertError.fallbackUnavailable)
    ∧ (∀ fr tr, resolveUsdRate (parseRates J) (strToUpper (strTrim pfrom)) = some fr →
        resolveUsdRate (parseRates J) (strToUpper (strTrim pto)) = some tr →
        convertOnce env pfrom pto amount =
          Except.ok ⟨jsMulQ amount (jsDivQ tr fr), some (jsDivQ tr fr),
            fallbackMeta (parseRates J)⟩)
    ∧ (∀ g : Option String → Except Unit Json,
        g (latestSymbolsParam (strToUpper (strTrim pfrom)) (strToUpper (strTrim pto))) =
          env.fetchLatest (latestSymbolsParam (strToUpper (strTrim pfrom)) (strToUpper (strTrim pto))) →
        convertOnce ⟨env.convertResp, g⟩ pfrom pto amount = convertOnce env pfrom pto amount) := by
  obtain ⟨cr, fl⟩ := env
  have hred : convertOnce ⟨cr, fl⟩ pfrom pto amount =
      convertViaUSD fl (strToUpper (strTrim pfrom)) (strToUpper (strTrim pto)) amount := by
    rcases cr with e | json
    · rfl
    · have hnf := hfail json rfl
      unfold convertOnce
      rcases hx : extractConvertResult json with r | _ | _ | _
      · rw [hx] at hnf
        exact absurd hnf (by simp [JsNum.isFinite])
      all_goals simp only [hx]
  have hl : fl (latestSymbolsParam (strToUpper (strTrim pfrom)) (strToUpper (strTrim pto))) =
      Except.ok J := hlatest
  refine ⟨hred, ?_, ?_, ?_⟩
  · intro hmiss
    rw [hred]
    unfold convertViaUSD
    rw [hl]
    dsimp only
    rcases hmiss with h | h
    · rw [h]
    · rw [h]
      rcases resolveUsdRate (parseRates J) (strToUpper (strTrim pfrom)) with _ | fr <;> rfl
  · intro fr tr hfr htr
    rw [hred]
    unfold convertViaUSD
    rw [hl]
    dsimp only
    rw [hfr, htr]
  · intro g hg
    have hred2 : convertOnce ⟨cr, g⟩ pfrom pto amount =
        convertViaUSD g (strToUpper (strTrim pfrom)) (strToUpper (strTrim pto)) amount := by
      rcases cr with e | json
      · rfl
      · have hnf := hfail json rfl
        unfold convertOnce
        rcases hx : extractConvertResult json with r | _ | _ | _
        · rw [hx] at hnf
          exact absurd hnf (by simp [JsNum.isFinite])
        all_goals simp only [hx]
    rw [hred, hred2]
    unfold convertViaUSD
    rw [hg]

/-- **C1 (witness)** — `convert("USD","USD",100)` with a failing
primary endpoint and an empty fallback rate map returns the fallback
result `result = 100`, `rate = 1`. -/
theorem convertOnce_fallback_witness :
    convertOnce ⟨Except.error (), fun _ => Except.ok (Json.obj [("rates", Json.obj [])])⟩
      "USD" "USD" 100 =
      Except.ok ⟨jsMulQ 100 (jsDivQ 1 1), some (jsDivQ 1 1),
        fallbackMeta (parseRates (Json.obj [("rates", Json.obj [])]))⟩
    ∧ jsMulQ 100 (jsDivQ 1 1) = JsNum.fin 100 ∧ jsDivQ 1 1 = JsNum.fin 1 := by
  refine ⟨(convertOnce_fallback_spec
    ⟨Except.error (), fun _ => Except.ok (Json.obj [("rates", Json.obj [])])⟩
    "USD" "USD" 100 (Json.obj [("rates", Json.obj [])])
    (fun j hj => Except.noConfusion hj) rfl).2.2.1 1 1 rfl rfl, ?_, ?_⟩
  · norm_num [jsMulQ, jsDivQ]
  · norm_num [jsDivQ]

/-- **C2 (counterexample)** — A transport error of the fallback's own
`latest` fetch surfaces to the caller, so `FallbackUnavailable` is not
the only error `convertOnce` can surface. -/
theorem convertOnce_transport_counterexample :
    convertOnce ⟨Except.error (), fun _ => Except.error ()⟩ "EUR" "GBP" 10 =
      Except.error ConvertError.transport
    ∧ ConvertError.transport ≠ ConvertError.fallbackUnavailable := by
  exact ⟨rfl, by decide⟩

/-- **C2 (amended)** — Every failure of the primary `convert` call is
caught inside `convertOnce` and triggers the fallback path (a finite
primary result returns without error); the errors `convertOnce` can
surface are exactly those of the fallback path itself: the transport
error of its `latest` fetch, or `FallbackUnavailable` when a required
rate is missing from the fetched rate map. -/
theorem convertOnce_error_surface (env : ConvertEnv) (pfrom pto : String) (amount : ℚ) :
    (∀ j r, env.convertResp = Except.ok j → extractConvertResult j = JsNum.fin r →
      convertOnce env pfrom pto amount =
        Except.ok ⟨JsNum.fin r, if amount = 0 then none else some (JsNum.fin (r / amount)), j⟩)
    ∧ (∀ e, convertOnce env pfrom pto amount = Except.error e →
        convertViaUSD env.fetchLatest (strToUpper (strTrim pfrom)) (strToUpper (strTrim pto))
            amount = Except.error e
        ∧ ((e = ConvertError.transport
            ∧ env.fetchLatest
                (latestSymbolsParam (strToUpper (strTrim pfrom)) (strToUpper (strTrim pto))) =
              Except.error ())
          ∨ (e = ConvertError.fallbackUnavailable


            ∧ ∃ J, env.fetchLatest
                (latestSymbolsParam (strToUpper (strTrim pfrom)) (strToUpper (strTrim pto))) =
                  Except.ok J
              ∧ (resolveUsdRate (parseRates J) (strToUpper (strTrim pfrom)) = none
                ∨ resolveUsdRate (parseRates J) (strToUpper (strTrim pto)) = none)))) := by
  obtain ⟨cr, fl⟩ := env
  constructor
  · intro j r hj hr
    unfold convertOnce
    have : cr = Except.ok j := hj
    rw [this]
    dsimp only
    rw [hr]
  · intro e he
    have hvia : convertViaUSD fl (strToUpper (strTrim pfrom)) (strToUpper (strTrim pto))
        amount = Except.error e := by
      unfold convertOnce at he
      rcases cr with u | json
      · exact he
      · dsimp only at he
        rcases hx : extractConvertResult json with r | _ | _ | _
        all_goals rw [hx] at he
        · exact absurd he (by simp)
        all_goals exact he
    refine ⟨hvia, ?_⟩
    unfold convertViaUSD at hvia
    rcases hf : fl (latestSymbolsParam (strToUpper (strTrim pfrom)) (strToUpper (strTrim pto)))
      with u | J
    all_goals rw [hf] at hvia
    · left
      cases u
      exact ⟨(Except.error.inj hvia).symm, hf⟩
    · right
      dsimp only at hvia
      rcases hfr : resolveUsdRate (parseRates J) (strToUpper (strTrim pfrom)) with _ | fr
      all_goals rcases htr : resolveUsdRate (parseRates J) (strToUpper (strTrim pto)) with _ | tr
      all_goals rw [hfr, htr] at hvia
      · exact ⟨(Except.error.inj hvia).symm, J, hf, Or.inl hfr⟩
      · exact ⟨(Except.error.inj hvia).symm, J, hf, Or.inl hfr⟩
      · exact ⟨(Except.error.inj hvia).symm, J, hf, Or.inr htr⟩
      · exact absurd hvia (by simp)

/-- **C2 (witness)** — Instantiating the amended claim: with a failing
primary call and a fallback payload missing the needed rates, the
surfaced error is the fallback's `FallbackUnavailable`. -/
theorem convertOnce_error_surface_witness :
    convertViaUSD (fun _ => Except.ok (Json.obj [])) "EUR" "GBP" 10 =
      Except.error ConvertError.fallbackUnavailable :=
  ((convertOnce_error_surface ⟨Except.error (), fun _ => Except.ok (Json.obj [])⟩
    "EUR" "GBP" 10).2 ConvertError.fallbackUnavailable rfl).1

/-- **C6 (counterexample)** — With `amount = 0` and a failing primary
endpoint, the fallback still returns a *defined* per-unit rate
(`rate = 1` for USD→USD), refuting "rate is undefined on whichever
path produced the result". -/
theorem convertOnce_zero_amount_counterexample :
    convertOnce ⟨Except.error (), fun _ => Except.ok (Json.obj [("rates", Json.obj [])])⟩
      "USD" "USD" 0 =
      Except.ok ⟨jsMulQ 0 (jsDivQ 1 1), some (jsDivQ 1 1), fallbackMeta []⟩
    ∧ some (jsDivQ 1 1) ≠ (none : Option JsNum) := by
  exact ⟨rfl, by simp⟩

/-- **C6 (amended)** — With `amount = 0` the primary path returns
`rate = undefined`; but any successful *fallback* result carries
`rate = some (cross-rate)`, a defined value, regardless of the amount
(with a non-finite primary result the zero-amount call is exactly the
fallback computation). -/
theorem convertOnce_zero_amount_rate (env : ConvertEnv) (pfrom pto : String) :
    (∀ j r, env.convertResp = Except.ok j → extractConvertResult j = JsNum.fin r →
      convertOnce env pfrom pto 0 = Except.ok ⟨JsNum.fin r, none, j⟩)
    ∧ (∀ (fetch : Option String → Except Unit Json) (fromC toC : String) (amount : ℚ) res,
        convertViaUSD fetch fromC toC amount = Except.ok res → ∃ n, res.rate = some n)
    ∧ (∀ amount : ℚ,
        (∀ j, env.convertResp = Except.ok j → (extractConvertResult j).isFinite = false) →
        convertOnce env pfrom pto amount =
          convertViaUSD env.fetchLatest (strToUpper (strTrim pfrom)) (strToUpper (strTrim pto))
            amount) := by
  obtain ⟨cr, fl⟩ := env
  refine ⟨?_, ?_, ?_⟩
  · intro j r hj hr
    unfold convertOnce
    have : cr = Except.ok j := hj
    rw [this]
    dsimp only
    rw [hr]
    simp
  · intro fetch fromC toC amount res hres
    unfold convertViaUSD at hres
    rcases hf : fetch (latestSymbolsParam fromC toC) with u | J
    all_goals rw [hf] at hres
    · exact absurd hres (by simp)
    · dsimp only at hres
      rcases hfr : resolveUsdRate (parseRates J) fromC with _ | fr
      all_goals rcases htr : resolveUsdRate (parseRates J) toC with _ | tr
      all_goals rw [hfr, htr] at hres
      · exact absurd hres (by simp)
      · exact absurd hres (by simp)
      · exact absurd hres (by simp)
      · have : res = ⟨jsMulQ amount (jsDivQ tr fr), some (jsDivQ tr fr), fallbackMeta (parseRates J)⟩ :=
          ((Except.ok.injEq _ _).mp hres).symm
        exact ⟨jsDivQ tr fr, by rw [this]⟩
  · intro amount hfail
    unfold convertOnce
    rcases cr with u | json
    · rfl
    · have hnf := hfail json rfl
      dsimp only
      rcases hx : extractConvertResult json with r | _ | _ | _
      · rw [hx] at hnf
        exact absurd hnf (by simp [JsNum.isFinite])
      all_goals rfl

/-- **C6 (witness)** — Instantiating the amended claim on the primary
path: a finite result `5` with `amount = 0` yields `rate = undefined`. -/
theorem convertOnce_zero_amount_rate_witness :
    convertOnce ⟨Except.ok (Json.obj [("result", Json.num (JsNum.fin 5))]), fun _ => Except.error ()⟩
      "USD" "EUR" 0 =
      Except.ok ⟨JsNum.fin 5, none, Json.obj [("result", Json.num (JsNum.fin 5))]⟩ :=
  (convertOnce_zero_amount_rate
    ⟨Except.ok (Json.obj [("result", Json.num (JsNum.fin 5))]), fun _ => Except.error ()⟩
    "USD" "EUR").1 (Json.obj [("result", Json.num (JsNum.fin 5))]) 5 rfl rfl

theorem currencyNames_nil (r : NameResolver) : currencyNames r [] = [] := by
  unfold currencyNames
  split <;> rfl

theorem currencyNames_length (r : NameResolver) (l : List Currency) :
    (currencyNames r l).length = l.length := by
  unfold currencyNames
  split
  · exact List.length_map l _
  · rfl

theorem sortCurrencies_length (l : List Currency) :
    (sortCurrencies l).length = l.length :=
  (sortCurrencies_perm l).length_eq

/-- **C8** — `getCurrencies` never throws: it is a total function of
the cache state and the outcomes of the two fetch attempts, every
result is either a cache hit or a fetched list; a failing `currencies`
fetch with a successful `latest` fallback still yields a (synthesized)
list, and when both fetches fail the empty list is returned. -/
theorem getCurrencies_never_throws (cached : Option (Option Json)) (now : ℚ)
    (r : NameResolver) (type : String) :
    (∀ f g : Except Unit Json,
      (∃ xs, getCurrencies cached now f g r type = .cacheHit xs)
      ∨ (∃ l, getCurrencies cached now f g r type = .fetched l))
    ∧ (cacheLookup cached now = none → ∀ J,
        getCurrencies cached now (Except.error ()) (Except.ok J) r type =
          .fetched (sortCurrencies (currencyNames r (synthFromLatest J))))
    ∧ (cacheLookup cached now = none →
        getCurrencies cached now (Except.error ()) (Except.error ()) r type = .fetched []) := by
  refine ⟨?_, ?_, ?_⟩
  · intro f g
    unfold getCurrencies
    rcases h : cacheLookup cached now with _ | xs
    · right; exact ⟨_, rfl⟩
    · left; exact ⟨xs, rfl⟩
  · intro h J
    unfold getCurrencies
    rw [h]
    dsimp only
    rw [if_pos (show ([] : List Currency).length < 5 by norm_num)]
  · intro h
    unfold getCurrencies
    rw [h]
    dsimp only
    rw [if_pos (show ([] : List Currency).length < 5 by norm_num), currencyNames_nil]
    rfl

/-- **C8 (witness)** — With no cache and both fetches failing, the
result is the fetched empty list (no error escapes). -/
theorem getCurrencies_never_throws_witness :
    getCurrencies none 0 (Except.error ()) (Except.error ())
      ⟨false, fun _ => none⟩ "fiat" = .fetched [] :=
  (getCurrencies_never_throws none 0 ⟨false, fun _ => none⟩ "fiat").2.2 rfl

/-- **C10** — On a cache miss, when the primary `currencies` fetch
normalizes to a non-empty list of fewer than 5 entries, the `latest`
fallback is still attempted: if that fetch fails the (name-backfilled,
sorted, non-empty) small primary list is returned rather than an empty
list, and if it succeeds its synthesized list replaces the primary list
outright — the result coincides with what a failed primary fetch would
have produced, so nothing is merged. -/
theorem getCurrencies_small_list_fallback (cached : Option (Option Json)) (now : ℚ)
    (r : NameResolver) (type : String) (raw : Json)
    (hmiss : cacheLookup cached now = none)
    (hne : parseCurrenciesJSON raw type ≠ [])
    (hlen : (parseCurrenciesJSON raw type).length < 5) :
    (getCurrencies cached now (Except.ok raw) (Except.error ()) r type =
      .fetched (sortCurrencies (currencyNames r (parseCurrenciesJSON raw type))))
    ∧ sortCurrencies (currencyNames r (parseCurrenciesJSON raw type)) ≠ []
    ∧ (∀ J, getCurrencies cached now (Except.ok raw) (Except.ok J) r type =
        .fetched (sortCurrencies (currencyNames r (synthFromLatest J))))
    ∧ (∀ J, getCurrencies cached now (Except.ok raw) (Except.ok J) r type =
        getCurrencies cached now (Except.error ()) (Except.ok J) r type) := by
  refine ⟨?_, ?_, ?_, ?_⟩
  · unfold getCurrencies
    rw [hmiss]
    dsimp only
    rw [if_pos hlen]
  · intro h
    have hl := congrArg List.length h
    rw [sortCurrencies_length, currencyNames_length] at hl
    exact hne (List.eq_nil_of_length_eq_zero hl)
  · intro J
    unfold getCurrencies
    rw [hmiss]
    dsimp only
    rw [if_pos hlen]
  · intro J
    unfold getCurrencies
    rw [hmiss]
    dsimp only
    rw [if_pos hlen]
    have : ([] : List Currency).length < 5 := by norm_num
    rw [if_pos this]

/-- **C10 (witness)** — A one-entry primary list with a failing
`latest` fallback is kept (backfilled and sorted), not emptied. -/
theorem getCurrencies_small_list_fallback_witness :
    getCurrencies none 0
      (Except.ok (Json.arr [Json.obj [("code", Json.str "USD"), ("name", Json.str "Dollar")]]))
      (Except.error ()) ⟨false, fun _ => none⟩ "fiat" =
      .fetched [⟨"USD", "Dollar", none⟩] := by
  have h := (getCurrencies_small_list_fallback none 0 ⟨false, fun _ => none⟩ "fiat"
    (Json.arr [Json.obj [("code", Json.str "USD"), ("name", Json.str "Dollar")]])
    rfl (by intro h; exact absurd (congrArg List.length h) (by decide))
    (by decide)).1
  rw [h]
  rfl

theorem cacheLookup_some_iff (cached : Option (Option Json)) (now : ℚ) (xs : List Json) :
    cacheLookup cached now = some xs ↔
      ∃ j, cached = some (some j)
        ∧ jget j "items" = some (Json.arr xs)
        ∧ xs ≠ []
        ∧ xs.all (fun x => isCode (jsToStringOpt (jget x "code"))) = true
        ∧ jsLtQ (jsSubQ now (jsToNumberOpt (jget j "at"))) 86400000 = true := by
  constructor
  · intro h
    rcases cached with _ | c
    · simp [cacheLookup] at h
    · rcases c with _ | j
      · simp [cacheLookup] at h
      · refine ⟨j, rfl, ?_⟩
        unfold cacheLookup at h
        rcases j with _ | b | n | s | el | fs
        · exact absurd h (by simp)
        · exact absurd h (by simp [jget])
        · exact absurd h (by simp [jget])
        · exact absurd h (by simp [jget])
        · exact absurd h (by simp [jget])
        · dsimp only at h
          rcases hit : jget (Json.obj fs) "items" with _ | v
          all_goals rw [hit] at h
          · exact absurd h (by simp)
          · rcases v with _ | b | n | s | el | fs2
            case arr =>
              dsimp only at h
              by_cases hcond :
                  (jsLtQ (jsSubQ now (jsToNumberOpt (jget (Json.obj fs) "at"))) 86400000 &&
                    !el.isEmpty &&
                    el.all fun x => isCode (jsToStringOpt (jget x "code"))) = true
              · rw [if_pos hcond] at h
                have hxs : el = xs := Option.some.inj h
                subst hxs
                rw [Bool.and_eq_true, Bool.and_eq_true] at hcond
                obtain ⟨⟨hfresh, hemp⟩, hall⟩ := hcond
                refine ⟨rfl, ?_, hall, hfresh⟩
                intro he
                rw [he] at hemp
                simp at hemp
              · rw [if_neg hcond] at h
                exact absurd h (by simp)
            all_goals exact absurd h (by simp)
  · intro ⟨j, hc, hit, hne, hall, hfresh⟩
    subst hc
    unfold cacheLookup
    rcases j with _ | b | n | s | el | fs
    · exact absurd hit (by simp [jget])
    · exact absurd hit (by simp [jget])
    · exact absurd hit (by simp [jget])
    · exact absurd hit (by simp [jget])
    · exact absurd hit (by simp [jget])
    · dsimp only
      rw [hit]
      dsimp only
      have hemp : xs.isEmpty = false := by
        rcases xs with _ | ⟨x, rest⟩
        · exact absurd rfl hne
        · rfl
      rw [hfresh, hemp, hall]
      rfl

/-- **C5 (counterexample)** — A present, fresh cache entry whose
`items` array is *empty* satisfies all the claim's conditions (every
item's code matches, vacuously), yet `getCurrencies` refetches instead
of returning the stored entry: the claimed "if and only if" fails. -/
theorem getCurrencies_cache_counterexample :
    (jget (Json.obj [("at", Json.num (JsNum.fin 0)), ("items", Json.arr [])]) "items" =
      some (Json.arr []))
    ∧ jsLtQ (jsSubQ 0 (jsToNumberOpt
        (jget (Json.obj [("at", Json.num (JsNum.fin 0)), ("items", Json.arr [])]) "at")))
        86400000 = true
    ∧ ([] : List Json).all (fun x => isCode (jsToStringOpt (jget x "code"))) = true
    ∧ getCurrencies
        (some (some (Json.obj [("at", Json.num (JsNum.fin 0)), ("items", Json.arr [])])))
        0 (Except.error ()) (Except.error ()) ⟨false, fun _ => none⟩ "fiat" = .fetched []
    ∧ ∀ xs, getCurrencies
        (some (some (Json.obj [("at", Json.num (JsNum.fin 0)), ("items", Json.arr [])])))
        0 (Except.error ()) (Except.error ()) ⟨false, fun _ => none⟩ "fiat" ≠ .cacheHit xs := by
  have hlookup : cacheLookup
      (some (some (Json.obj [("at", Json.num (JsNum.fin 0)), ("items", Json.arr [])]))) 0 =
      none := by
    rcases h : cacheLookup
        (some (some (Json.obj [("at", Json.num (JsNum.fin 0)), ("items", Json.arr [])]))) 0
      with _ | xs
    · rfl
    · exfalso
      obtain ⟨j, hj, hit, hne, _, _⟩ := (cacheLookup_some_iff _ _ _).mp h
      have hje : j = Json.obj [("at", Json.num (JsNum.fin 0)), ("items", Json.arr [])] :=
        (Option.some.inj (Option.some.inj hj)).symm
      subst hje
      have h2 : some (Json.arr ([] : List Json)) = some (Json.arr xs) :=
        (show some (Json.arr ([] : List Json)) =
          jget (Json.obj [("at", Json.num (JsNum.fin 0)), ("items", Json.arr [])]) "items"
          from rfl).trans hit
      exact hne (Json.arr.inj (Option.some.inj h2)).symm
  have hfetched : getCurrencies
      (some (some (Json.obj [("at", Json.num (JsNum.fin 0)), ("items", Json.arr [])])))
      0 (Except.error ()) (Except.error ()) ⟨false, fun _ => none⟩ "fiat" = .fetched [] := by
    unfold getCurrencies
    rw [hlookup]
    dsimp only
    rw [if_pos (show ([] : List Currency).length < 5 by norm_num), currencyNames_nil]
    rfl
  refine ⟨rfl, ?_, rfl, hfetched, ?_⟩
  · have h1 : jget (Json.obj [("at", Json.num (JsNum.fin 0)), ("items", Json.arr [])]) "at" =
        some (Json.num (JsNum.fin 0)) := rfl
    rw [h1]
    norm_num [jsToNumberOpt, jsToNumber, jsSubQ, jsLtQ]
  · intro xs h
    rw [hfetched] at h
    exact GetCurrenciesResult.noConfusion h

/-- **C5 (amended)** — `getCurrencies` returns the stored cache entry
immediately iff the entry is present and parseable, its `items` field
is a **non-empty** array, every cached item's code matches the code
pattern (after string coercion), and `Date.now() - at < 24h`; writing
an entry (as `getCurrencies` serializes it) and reading it within 24h
with structurally valid, non-empty items returns exactly the
serialized items; reading when the freshness test fails (age ≥ 24h)
triggers a refetch. -/
theorem getCurrencies_cache_spec (cached : Option (Option Json)) (now : ℚ)
    (f g : Except Unit Json) (r : NameResolver) (type : String) :
    ((∃ xs, getCurrencies cached now f g r type = .cacheHit xs) ↔
      (∃ j xs, cached = some (some j)
        ∧ jget j "items" = some (Json.arr xs)
        ∧ xs ≠ []
        ∧ xs.all (fun x => isCode (jsToStringOpt (jget x "code"))) = true
        ∧ jsLtQ (jsSubQ now (jsToNumberOpt (jget j "at"))) 86400000 = true))
    ∧ (∀ (at0 : ℚ) (items : List Currency),
        items ≠ [] →
        (∀ c ∈ items, isCode c.code = true) →
        jsLtQ (jsSubQ now (JsNum.fin at0)) 86400000 = true →
        getCurrencies (some (some (cacheEntryJson at0 items))) now f g r type =
          .cacheHit (items.map currencyToJson))
    ∧ (∀ (at0 : ℚ) (items : List Currency),
        jsLtQ (jsSubQ now (JsNum.fin at0)) 86400000 = false →
        ∃ l, getCurrencies (some (some (cacheEntryJson at0 items))) now f g r type =
          .fetched l) := by
  refine ⟨?_, ?_, ?_⟩
  · constructor
    · intro ⟨xs, h⟩
      unfold getCurrencies at h
      rcases hc : cacheLookup cached now with _ | ys
      all_goals rw [hc] at h
      · exact absurd h (by rcases f with u | raw <;> simp)
      · have : ys = xs := by
          have := h
          dsimp only at this
          exact (GetCurrenciesResult.cacheHit.inj this)
        subst this
        obtain ⟨j, hj, hrest⟩ := (cacheLookup_some_iff cached now ys).mp hc
        exact ⟨j, ys, hj, hrest⟩
    · intro ⟨j, xs, hj, hit, hne, hall, hfresh⟩
      have hc : cacheLookup cached now = some xs :=
        (cacheLookup_some_iff cached now xs).mpr ⟨j, hj, hit, hne, hall, hfresh⟩
      refine ⟨xs, ?_⟩
      unfold getCurrencies
      rw [hc]
  · intro at0 items hne hcodes hfresh
    have hc : cacheLookup (some (some (cacheEntryJson at0 items))) now =
        some (items.map currencyToJson) := by
      apply (cacheLookup_some_iff _ now _).mpr
      refine ⟨cacheEntryJson at0 items, rfl, ?_, ?_, ?_, ?_⟩
      · rfl
      · intro h
        exact hne (List.map_eq_nil_iff.mp h)
      · rw [List.all_eq_true]
        intro x hx
        obtain ⟨c, hcmem, hce⟩ := List.mem_map.mp hx
        have : jget x "code" = some (Json.str c.code) := by
          rw [← hce]
          unfold currencyToJson
          rcases c.symbol with _ | s <;> rfl
        rw [this]
        exact hcodes c hcmem
      · exact hfresh
    refine ?_
    unfold getCurrencies
    rw [hc]
  · intro at0 items hstale
    unfold getCurrencies
    rcases hc : cacheLookup (some (some (cacheEntryJson at0 items))) now with _ | xs
    · exact ⟨_, rfl⟩
    · exfalso
      obtain ⟨j, hj, hit, hne, hall, hfresh⟩ := (cacheLookup_some_iff _ now xs).mp hc
      have hje : j = cacheEntryJson at0 items := by
        have := Option.some.inj (Option.some.inj hj)
        exact this.symm
      subst hje
      have : jsToNumberOpt (jget (cacheEntryJson at0 items) "at") = JsNum.fin at0 := rfl
      rw [this] at hfresh
      rw [hstale] at hfresh
      exact Bool.noConfusion hfresh

/-- **C5 (witness)** — A concrete round trip: one valid item written at
time 0 and read at time 1 is returned as cached, and reading at
exactly 24h refetches. -/
theorem getCurrencies_cache_spec_witness :
    getCurrencies (some (some (cacheEntryJson 0 [⟨"USD", "Dollar", none⟩]))) 1
      (Except.error ()) (Except.error ()) ⟨false, fun _ => none⟩ "fiat" =
      .cacheHit [Json.obj [("code", Json.str "USD"), ("name", Json.str "Dollar")]] := by
  have h := (getCurrencies_cache_spec
    (some (some (cacheEntryJson 0 [⟨"USD", "Dollar", none⟩]))) 1
    (Except.error ()) (Except.error ()) ⟨false, fun _ => none⟩ "fiat").2.1
    0 [⟨"USD", "Dollar", none⟩]
    (by intro h; exact List.noConfusion h)
    (by intro c hc; rcases List.mem_singleton.mp hc with rfl; rfl)
    (by norm_num [jsSubQ, jsLtQ])
  rw [h]
  rfl

theorem jsWhitespace_false_of_upper {c : Char} (h1 : 'A' ≤ c) (h2 : c ≤ 'Z') :
    jsWhitespace c = false := by
  have hn1 : 65 ≤ c.toNat := h1
  have hn2 : c.toNat ≤ 90 := h2
  have hne : ∀ d : Char, d.toNat < 65 → (c = d) = False := by
    intro d hd
    simp only [eq_iff_iff, iff_false]
    intro he
    rw [he] at hn1
    omega
  simp [jsWhitespace, hne ' ' (by decide), hne (Char.ofNat 9) (by decide),
    hne (Char.ofNat 10) (by decide), hne (Char.ofNat 13) (by decide),
    hne (Char.ofNat 11) (by decide), hne (Char.ofNat 12) (by decide)]

theorem isCode_chars {s : String} (h : isCode s = true) :
    ∀ c ∈ s.data, 'A' ≤ c ∧ c ≤ 'Z' := by
  unfold isCode at h
  rw [Bool.and_eq_true] at h
  have hall := h.2
  intro c hc
  have := List.all_eq_true.mp hall c hc
  rw [Bool.and_eq_true] at this
  exact ⟨of_decide_eq_true this.1, of_decide_eq_true this.2⟩

theorem dropWhile_eq_self_of_false {p : Char → Bool} {l : List Char}
    (h : ∀ c ∈ l, p c = false) : l.dropWhile p = l := by
  rcases l with _ | ⟨c, cs⟩
  · rfl
  · simp [List.dropWhile, h c (List.mem_cons_self c cs)]

theorem strTrim_of_isCode {s : String} (h : isCode s = true) : strTrim s = s := by
  have hchars := isCode_chars h
  have hws : ∀ c ∈ s.data, jsWhitespace c = false := by
    intro c hc
    exact jsWhitespace_false_of_upper (hchars c hc).1 (hchars c hc).2
  unfold strTrim
  rw [dropWhile_eq_self_of_false hws]
  rw [dropWhile_eq_self_of_false (by intro c hc; exact hws c (List.mem_reverse.mp hc))]
  rw [List.reverse_reverse]

theorem strToUpper_of_isCode {s : String} (h : isCode s = true) : strToUpper s = s := by
  have hchars := isCode_chars h
  unfold strToUpper
  have : s.data.map (fun c => if 'a' ≤ c && c ≤ 'z' then Char.ofNat (c.toNat - 32) else c) =
      s.data.map id := by
    apply List.map_congr_left
    intro c hc
    have h2 : c.toNat ≤ 90 := (hchars c hc).2
    have hcond : ('a' ≤ c && c ≤ 'z') = false := by
      rw [Bool.and_eq_false_iff]
      left
      rw [decide_eq_false_iff_not]
      intro hle
      have : 97 ≤ c.toNat := hle
      omega
    rw [hcond]
    rfl
  rw [this, List.map_id]

theorem normalizeCode_of_isCode {s : String} (h : isCode s = true) :
    strToUpper (strTrim s) = s := by
  rw [strTrim_of_isCode h, strToUpper_of_isCode h]

theorem orEmptyObj_of_ne_null {v : Json} (h : v ≠ Json.null) : orEmptyObj v = v := by
  rcases v with _ | b | n | s | xs | fs
  · exact absurd rfl h
  all_goals rfl

theorem fieldChain_nullish {v : Json} {ks : List String}
    (h : ∀ k ∈ ks, isNullish (jget v k) = true) : isNullish (fieldChain v ks) = true := by
  induction ks with
  | nil => rfl
  | cons k rest ih =>
    unfold fieldChain nco
    rw [h k (List.mem_cons_self k rest), if_pos rfl]
    exact ih (fun k2 hk2 => h k2 (List.mem_cons_of_mem k hk2))

theorem jget_singleton (k k0 : String) (v : Json) :
    jget (Json.obj [(k, v)]) k0 = if k = k0 then some v else none := by
  unfold jget
  by_cases h : k = k0
  · simp [h]
  · simp [h]

/-- **C4 (counterexample)** — (a) `{short_code: "", code: "USD",
name: "Dollar"}` as an array record yields no entry: the chain stops at
the non-nullish empty string and the record is dropped; the claimed
"first non-empty" rule would have produced a `USD` entry.
(b) `{USD: {code: "xx!", name: "Dollar"}}` yields no entry: the
non-nullish `code` field wins the chain and fails the pattern, and the
map key is not consulted; the claimed rule ("the key is used whenever
no explicit code field matches the pattern") would have produced a
`USD` entry. -/
theorem parseCurrencies_extraction_counterexample :
    parseCurrenciesJSON (Json.arr [Json.obj
      [("short_code", Json.str ""), ("code", Json.str "USD"), ("name", Json.str "Dollar")]])
      "fiat" = []
    ∧ parseCurrenciesJSON (Json.obj
      [("USD", Json.obj [("code", Json.str "xx!"), ("name", Json.str "Dollar")])])
      "fiat" = [] :=
  ⟨rfl, rfl⟩

/-- `addCandidate` on a pattern-valid normalized code: insert the
entry. -/
theorem addCandidate_eval (tbl : List (String × Currency))
    (codeRaw nameRaw symbolRaw : Option Json) (s : String)
    (hcr : normalizeCode codeRaw = s) (hs : isCode s = true) :
    addCandidate tbl codeRaw nameRaw symbolRaw =
      upsert tbl s
        ⟨s, (if isNullish nameRaw then s else jsToString (nameRaw.getD Json.null)), symbolRaw⟩ := by
  unfold addCandidate
  rw [hcr, if_pos hs]

theorem isNullish_false_of_truthy {c : Json} (htr : truthy c = true) :
    isNullish (some c) = false := by
  rcases c with _ | b | n | s | xs | fs
  · exact absurd htr (by simp [truthy])
  all_goals rfl

theorem string_ne_empty_of_isCode {s : String} (h : isCode s = true) : s ≠ "" := by
  intro he
  rw [he] at h
  exact absurd h (by decide)

/-- `processArrayItem` when the record's `short_code` is present,
non-null and truthy: that value alone is the candidate code. -/
theorem processArrayItem_eval (tbl : List (String × Currency)) (v c : Json)
    (hc : jget v "short_code" = some c) (htr : truthy c = true) :
    processArrayItem tbl v =
      if truthyOpt (nco (fieldChain v nameFields) (some c)) then
        addCandidate tbl (some c) (nco (fieldChain v nameFields) (some c))
          (fieldChain v symbolFields)
      else tbl := by
  have hvne : v ≠ Json.null := by
    intro he
    rw [he] at hc
    exact Option.noConfusion hc
  have hcode : fieldChain v codeFields = some c := by
    show nco (jget v "short_code") _ = some c
    unfold nco
    rw [hc, isNullish_false_of_truthy htr]
    rfl
  unfold processArrayItem
  rw [orEmptyObj_of_ne_null hvne]
  dsimp only
  rw [hcode]
  have hto : truthyOpt (some c) = true := htr
  rw [hto, Bool.true_and]

/-- `processMapEntry` on an object value whose code fields are all
nullish and whose key passes the pattern: the key becomes the
candidate code. -/
theorem processMapEntry_obj_eval (tbl : List (String × Currency)) (key : String)
    (fs : List (String × Json))
    (hnull : ∀ k ∈ codeFields, isNullish (jget (Json.obj fs) k) = true)
    (hkey : isCode key = true) :
    processMapEntry tbl key (Json.obj fs) =
      if truthyOpt (nco (fieldChain (Json.obj fs) nameFields) (some (Json.str key))) then
        addCandidate tbl (some (Json.str key))
          (nco (fieldChain (Json.obj fs) nameFields) (some (Json.str key)))
          (fieldChain (Json.obj fs) symbolFields)
      else tbl := by
  have hch := fieldChain_nullish hnull
  have hcode : nco (fieldChain (Json.obj fs) codeFields)
      (if isCode key then some (Json.str key) else none) = some (Json.str key) := by
    unfold nco
    rw [hch, if_pos rfl, if_pos hkey]
  unfold processMapEntry
  dsimp only
  rw [show orEmptyObj (Json.obj fs) = Json.obj fs from rfl, hcode]
  have hto : truthyOpt (some (Json.str key)) = true := by
    show decide (key ≠ "") = true
    simp [string_ne_empty_of_isCode hkey]
  rw [hto, Bool.true_and]

theorem normalizeCode_str (s : String) :
    normalizeCode (some (Json.str s)) = strToUpper (strTrim s) := rfl

/-- **C4 (amended)** — The code of a record is taken from the first
**non-nullish** (present, non-`null`) of `short_code, code, iso_code,
ticker, currency`: (1) the extraction chain skips exactly the nullish
fields; (2) once a truthy non-nullish `short_code` is selected it alone
determines the record's code — a pattern-failing value drops the record
without consulting later fields, a pattern-passing one is the code of
any produced entry; (3) for a code-keyed object value the map key is
used as the code exactly when **all five** code fields are nullish and
the key itself matches the pattern (given a truthy resolved name). -/
theorem parseCurrencies_code_extraction (t : String) :
    (∀ (v : Json) (k : String) (ks : List String),
      fieldChain v (k :: ks) =
        if isNullish (jget v k) then fieldChain v ks else jget v k)
    ∧ (∀ (v c : Json), jget v "short_code" = some c → truthy c = true →
        (isCode (normalizeCode (some c)) = false →
          parseCurrenciesJSON (Json.arr [v]) t = [])
        ∧ (∀ cur ∈ parseCurrenciesJSON (Json.arr [v]) t,
            cur.code = normalizeCode (some c)))
    ∧ (∀ (key : String) (fs : List (String × Json)),
        key ≠ "response" → key ≠ "currencies" → key ≠ "data" →
        (∀ k ∈ codeFields, isNullish (jget (Json.obj fs) k) = true) →
        isCode key = true →
        truthyOpt (nco (fieldChain (Json.obj fs) nameFields) (some (Json.str key))) = true →
        parseCurrenciesJSON (Json.obj [(key, Json.obj fs)]) t =
          [⟨key,
            (if isNullish (nco (fieldChain (Json.obj fs) nameFields) (some (Json.str key)))
             then key
             else jsToString ((nco (fieldChain (Json.obj fs) nameFields)
                (some (Json.str key))).getD Json.null)),
            fieldChain (Json.obj fs) symbolFields⟩]) := by
  refine ⟨?_, ?_, ?_⟩
  · intro v k ks
    rfl
  · intro v c hc htr
    have hstep : parseCurrenciesJSON (Json.arr [v]) t =
        sortCurrencies ((processArrayItem [] v).map (·.2)) := rfl
    rw [processArrayItem_eval [] v c hc htr] at hstep
    constructor
    · intro hbad
      rw [hstep]
      by_cases htn : truthyOpt (nco (fieldChain v nameFields) (some c)) = true
      · rw [if_pos htn]
        unfold addCandidate
        rw [if_neg (by rw [hbad]; exact Bool.noConfusion)]
        rfl
      · rw [if_neg htn]
        rfl
    · intro cur hcur
      rw [hstep] at hcur
      by_cases htn : truthyOpt (nco (fieldChain v nameFields) (some c)) = true
      · rw [if_pos htn] at hcur
        unfold addCandidate at hcur
        by_cases hgood : isCode (normalizeCode (some c)) = true
        · rw [if_pos hgood] at hcur
          have : cur ∈ ((upsert ([] : List (String × Currency)) (normalizeCode (some c))
              ⟨normalizeCode (some c),
                (if isNullish (nco (fieldChain v nameFields) (some c))
                 then normalizeCode (some c)
                 else jsToString ((nco (fieldChain v nameFields) (some c)).getD Json.null)),
                fieldChain v symbolFields⟩).map (·.2)) :=
            (sortCurrencies_perm _).mem_iff.mp hcur
          have hmem : cur ∈ [(⟨normalizeCode (some c),
              (if isNullish (nco (fieldChain v nameFields) (some c))
               then normalizeCode (some c)
               else jsToString ((nco (fieldChain v nameFields) (some c)).getD Json.null)),
              fieldChain v symbolFields⟩ : Currency)] := this
          rw [List.mem_singleton] at hmem
          rw [hmem]
        · rw [if_neg hgood] at hcur
          exact absurd hcur (by simp [sortCurrencies])
      · rw [if_neg htn] at hcur
        exact absurd hcur (by simp [sortCurrencies])
  · intro key fs hr hc hd hnull hkey htn
    have h1 : jget (Json.obj [(key, Json.obj fs)]) "response" = none := by
      rw [jget_singleton, if_neg hr]
    have h2 : jget (Json.obj [(key, Json.obj fs)]) "currencies" = none := by
      rw [jget_singleton, if_neg hc]
    have h3 : jget (Json.obj [(key, Json.obj fs)]) "data" = none := by
      rw [jget_singleton, if_neg hd]
    have hentries : objEntries [(key, Json.obj fs)] = [(key, Json.obj fs)] := by
      simp [objEntries, objKeys, dedupFirst, dedupFirstAux, List.filter]
    have hfold : (sourcesOf (Json.obj [(key, Json.obj fs)]) t).foldl processSource [] =
        processMapEntry [] key (Json.obj fs) := by
      unfold sourcesOf
      rw [h1, h2, h3]
      show processSource (processSource [] none) (some (Json.obj [(key, Json.obj fs)])) =
        processMapEntry [] key (Json.obj fs)
      show processSource [] (some (Json.obj [(key, Json.obj fs)])) =
        processMapEntry [] key (Json.obj fs)
      unfold processSource
      dsimp only
      rw [hentries]
      rfl
    have hnorm : normalizeCode (some (Json.str key)) = key := by
      rw [normalizeCode_str]
      exact normalizeCode_of_isCode hkey
    unfold parseCurrenciesJSON
    rw [hfold, processMapEntry_obj_eval [] key fs hnull hkey, if_pos htn,
      addCandidate_eval [] _ _ _ key hnorm hkey]
    rfl

/-- **C4 (witness)** — Instantiating the amended claim's map-key case:
`{USD: {name: "Dollar"}}` has every code field nullish and a
pattern-valid key, so the key becomes the code. -/
theorem parseCurrencies_code_extraction_witness :
    parseCurrenciesJSON (Json.obj [("USD", Json.obj [("name", Json.str "Dollar")])]) "fiat" =
      [⟨"USD", "Dollar", none⟩] := by
  have h := (parseCurrencies_code_extraction "fiat").2.2 "USD" [("name", Json.str "Dollar")]
    (by decide) (by decide) (by decide)
    (by intro k hk; fin_cases hk <;> rfl)
    (by decide) rfl
  rw [h]
  rfl

theorem dedupFirstAux_spec {α : Type} [DecidableEq α] (l : List α) :
    ∀ seen : List α, (dedupFirstAux seen l).Nodup ∧ ∀ a ∈ dedupFirstAux seen l, a ∉ seen := by
  induction l with
  | nil => intro seen; exact ⟨List.nodup_nil, by intro a ha; exact absurd ha (List.not_mem_nil a)⟩
  | cons x rest ih =>
    intro seen
    unfold dedupFirstAux
    by_cases hx : x ∈ seen
    · rw [if_pos hx]
      exact ih seen
    · rw [if_neg hx]
      obtain ⟨hnd, hmem⟩ := ih (x :: seen)
      refine ⟨?_, ?_⟩
      · rw [List.nodup_cons]
        refine ⟨?_, hnd⟩
        intro hxs
        exact hmem x hxs (List.mem_cons_self x seen)
      · intro a ha
        rw [List.mem_cons] at ha
        rcases ha with rfl | ha
        · exact hx
        · intro hsa
          exact hmem a ha (List.mem_cons_of_mem x hsa)

theorem dedupFirst_nodup {α : Type} [DecidableEq α] (l : List α) : (dedupFirst l).Nodup :=
  (dedupFirstAux_spec l []).1

theorem objKeys_nodup (fields : List (String × Json)) : (objKeys fields).Nodup :=
  dedupFirst_nodup _

theorem nodup_map_pairwise {α β : Type} {f : α → β} {l : List α}
    (h : (l.map f).Nodup) : l.Pairwise (fun a b => f a ≠ f b) := by
  induction l with
  | nil => exact List.Pairwise.nil
  | cons x rest ih =>
    rw [List.map_cons, List.nodup_cons] at h
    refine List.Pairwise.cons ?_ (ih h.2)
    intro b hb he
    exact h.1 (he ▸ List.mem_map_of_mem f hb)

theorem batchPoint_date {buckets : Json} {fromC toC d : String} {p : TimeseriesPoint}
    (h : batchPoint buckets fromC toC d = some p) : p.date = d := by
  unfold batchPoint at h
  dsimp only at h
  split at h
  · rw [← Option.some.inj h]
  · exact absurd h (by simp)

theorem historicalPoint_date {env : TimeseriesEnv} {fromC toC day : String}
    {p : TimeseriesPoint} (h : historicalPoint env fromC toC day = some p) : p.date = day := by
  unfold historicalPoint at h
  split at h
  · exact absurd h (by simp)
  · dsimp only at h
    split at h
    · rw [← Option.some.inj h]
    · exact absurd h (by simp)

theorem map_date_filterMap (dates : List String) (f : String → Option TimeseriesPoint)
    (hf : ∀ d p, f d = some p → p.date = d) :
    (dates.filterMap f).map (·.date) = dates.filter (fun d => (f d).isSome) := by
  induction dates with
  | nil => rfl
  | cons d rest ih =>
    rw [List.filterMap_cons, List.filter_cons]
    rcases hd : f d with _ | p
    · simp only [hd, Option.isSome_none]
      rw [if_neg (by simp)]
      exact ih
    · simp only [hd, Option.isSome_some, if_true]
      rw [List.map_cons, ih, hf d p hd]

theorem sortPoints_sorted (l : List TimeseriesPoint) :
    (l.insertionSort (fun a b => strLe a.date b.date = true)).Pairwise
      (fun a b => strLe a.date b.date = true) := by
  haveI : IsTotal TimeseriesPoint (fun a b => strLe a.date b.date = true) :=
    ⟨fun a b => strLe_total a.date b.date⟩
  haveI : IsTrans TimeseriesPoint (fun a b => strLe a.date b.date = true) :=
    ⟨fun _ _ _ h1 h2 => strLe_trans h1 h2⟩
  exact List.sorted_insertionSort _ l

theorem strict_of_sorted_nodup_points {l : List TimeseriesPoint}
    (hs : l.Pairwise (fun a b => strLe a.date b.date = true))
    (hn : (l.map (·.date)).Nodup) : StrictlyAscendingDates l := by
  have hpw := nodup_map_pairwise hn
  exact (hs.and hpw).imp (fun h => strLt_of_le_of_ne h.1 h.2)

theorem digitChar_toNat_aux : ∀ f : Fin 10, (digitChar f.val).toNat = 48 + f.val := by
  decide

theorem digitChar_toNat_small {n : Nat} (h : n < 10) : (digitChar n).toNat - 48 = n := by
  have := digitChar_toNat_aux ⟨n, h⟩
  dsimp only at this
  omega

theorem valDigits_foldl_shift (ys : List Char) : ∀ a : Nat,
    ys.foldl (fun a c => 10 * a + (c.toNat - 48)) a = a * 10 ^ ys.length + valDigits ys := by
  induction ys with
  | nil => intro a; simp [valDigits]
  | cons c ys ih =>
    intro a
    have hva : valDigits (c :: ys) = (c.toNat - 48) * 10 ^ ys.length + valDigits ys := by
      unfold valDigits
      rw [List.foldl_cons]
      have := ih (10 * 0 + (c.toNat - 48))
      rw [this]
      ring_nf
      rfl
    rw [List.foldl_cons, ih (10 * a + (c.toNat - 48)), hva]
    simp only [List.length_cons]
    ring

theorem valDigits_append (xs ys : List Char) :
    valDigits (xs ++ ys) = valDigits xs * 10 ^ ys.length + valDigits ys := by
  unfold valDigits
  rw [List.foldl_append]
  exact valDigits_foldl_shift ys _

theorem natToStringAux_append (fuel : Nat) : ∀ (n : Nat) (acc : List Char),
    natToStringAux fuel n acc = natToStringAux fuel n [] ++ acc := by
  induction fuel with
  | zero => intro n acc; rfl
  | succ f ih =>
    intro n acc
    unfold natToStringAux
    by_cases h : n < 10
    · rw [if_pos h, if_pos h]
      rfl
    · rw [if_neg h, if_neg h]
      rw [ih (n / 10) (digitChar (n % 10) :: acc), ih (n / 10) [digitChar (n % 10)]]
      rw [List.append_assoc]
      rfl

theorem valDigits_natToStringAux : ∀ (fuel n : Nat), n < 10 ^ fuel →
    valDigits (natToStringAux fuel n []) = n := by
  intro fuel
  induction fuel with
  | zero =>
    intro n h
    have hn : n = 0 := by simpa using h
    subst hn
    rfl
  | succ f ih =>
    intro n h
    unfold natToStringAux
    by_cases h10 : n < 10
    · rw [if_pos h10]
      have hd := digitChar_toNat_small h10
      show valDigits [digitChar n] = n
      unfold valDigits
      rw [List.foldl_cons, List.foldl_nil]
      omega
    · rw [if_neg h10]
      rw [natToStringAux_append f (n / 10) [digitChar (n % 10)]]
      rw [valDigits_append]
      have hdiv : n / 10 < 10 ^ f := by
        rw [pow_succ] at h
        omega
      rw [ih (n / 10) hdiv]
      have hd := digitChar_toNat_small (show n % 10 < 10 by omega)
      have hone : valDigits [digitChar (n % 10)] = n % 10 := by
        unfold valDigits
        rw [List.foldl_cons, List.foldl_nil]
        omega
      rw [hone]
      simp only [List.length_cons, List.length_nil, pow_one]
      omega

theorem lt_ten_pow_succ (n : Nat) : n < 10 ^ (n + 1) := by
  induction n with
  | zero => norm_num
  | succ k ih =>
    rw [pow_succ]
    have h1 : 1 ≤ 10 ^ (k + 1) := Nat.one_le_pow _ _ (by norm_num)
    omega

theorem natToString_inj {m n : Nat} (h : natToString m = natToString n) : m = n := by
  have h1 := valDigits_natToStringAux (m + 1) m (lt_ten_pow_succ m)
  have h2 := valDigits_natToStringAux (n + 1) n (lt_ten_pow_succ n)
  have hdata : natToStringAux (m + 1) m [] = natToStringAux (n + 1) n [] :=
    congrArg String.data h
  rw [hdata] at h1
  omega

theorem bucketKeys_nodup (j : Json) : (bucketKeys j).Nodup := by
  rcases j with _ | b | n | s | xs | fs
  case obj => exact objKeys_nodup fs
  case arr => exact (List.nodup_range xs.length).map (fun a b hab => natToString_inj hab)
  case str => exact (List.nodup_range s.data.length).map (fun a b hab => natToString_inj hab)
  all_goals exact List.nodup_nil

/-- The batch series has strictly ascending dates, and its dates are
exactly the sorted bucket keys at which both sides resolve. -/
theorem batchSeries_spec (json : Json) (fromC toC : String) :
    StrictlyAscendingDates (batchSeries json fromC toC)
    ∧ (batchSeries json fromC toC).map (·.date) =
        ((bucketKeys (batchBuckets json)).insertionSort (fun a b => strLe a b = true)).filter
          (fun d => (batchPoint (batchBuckets json) fromC toC d).isSome) := by
  have hdates_sorted := sortStrings_sorted (bucketKeys (batchBuckets json))
  have hdates_nodup :
      ((bucketKeys (batchBuckets json)).insertionSort (fun a b => strLe a b = true)).Nodup :=
    (List.perm_insertionSort _ _).nodup_iff.mpr (bucketKeys_nodup _)
  have hdates_strict := pairwise_strLt_of_sorted_nodup hdates_sorted hdates_nodup
  have hmap : (batchSeries json fromC toC).map (·.date) =
      ((bucketKeys (batchBuckets json)).insertionSort (fun a b => strLe a b = true)).filter
        (fun d => (batchPoint (batchBuckets json) fromC toC d).isSome) := by
    unfold batchSeries
    exact map_date_filterMap _ _ (fun d p h => batchPoint_date h)
  refine ⟨?_, hmap⟩
  have hsub : List.Sublist ((batchSeries json fromC toC).map (·.date))
      ((bucketKeys (batchBuckets json)).insertionSort (fun a b => strLe a b = true)) := by
    rw [hmap]
    exact List.filter_sublist _
  have hpw : ((batchSeries json fromC toC).map (·.date)).Pairwise
      (fun a b => strLt a b = true) := hdates_strict.sublist hsub
  exact (List.pairwise_map.mp hpw)

theorem daysInMonth_le (y m : Nat) : daysInMonth y m ≤ 31 := by
  unfold daysInMonth
  split_ifs <;> norm_num

theorem nextDay_valid {x : YMD} (h : YMDValid x) : YMDValid (nextDay x) := by
  obtain ⟨h1, h2, h3, h4⟩ := h
  have hle := daysInMonth_le x.y x.m
  unfold YMDValid nextDay
  split_ifs with ha hb <;> dsimp only <;> omega

theorem ymdLt_nextDay (x : YMD) : ymdLt x (nextDay x) := by
  unfold ymdLt nextDay
  split_ifs with ha hb <;> dsimp only <;> omega

theorem ymdLt_trans {a b c : YMD} (h1 : ymdLt a b) (h2 : ymdLt b c) : ymdLt a c := by
  unfold ymdLt at *
  omega

theorem ymdLt_ne {a b : YMD} (h : ymdLt a b) : a ≠ b := by
  intro he
  subst he
  unfold ymdLt at h
  omega

theorem le_y_of_ymdLe {a b : YMD} (h : ymdLe a b = true) : a.y ≤ b.y := by
  unfold ymdLe at h
  rw [Bool.or_eq_true] at h
  rcases h with h | h
  · have := of_decide_eq_true h
    omega
  · rw [Bool.and_eq_true] at h
    have := of_decide_eq_true h.1
    omega

theorem digitChar_inj_aux : ∀ a b : Fin 10, digitChar a.val = digitChar b.val → a = b := by
  decide

theorem digitChar_inj {m n : Nat} (h : digitChar m = digitChar n) : m % 10 = n % 10 := by
  have e1 : (m % 10) % 10 = m % 10 := by omega
  have e2 : (n % 10) % 10 = n % 10 := by omega
  have h2 : digitChar (m % 10) = digitChar (n % 10) := by
    unfold digitChar at h ⊢
    rw [e1, e2]
    exact h
  have h3 := digitChar_inj_aux ⟨m % 10, by omega⟩ ⟨n % 10, by omega⟩ h2
  exact congrArg Fin.val h3

theorem formatYMD_inj {a b : YMD} (hay : a.y ≤ 9999) (hby : b.y ≤ 9999)
    (ham : a.m ≤ 99) (hbm : b.m ≤ 99) (had : a.d ≤ 99) (hbd : b.d ≤ 99)
    (h : formatYMD a = formatYMD b) : a = b := by
  unfold formatYMD at h
  have hl := congrArg String.data h
  simp only [List.cons.injEq, and_true] at hl
  obtain ⟨e1, e2, e3, e4, _, e5, e6, _, e7, e8⟩ := hl
  have d1 := digitChar_inj e1
  have d2 := digitChar_inj e2
  have d3 := digitChar_inj e3
  have d4 := digitChar_inj e4
  have d5 := digitChar_inj e5
  have d6 := digitChar_inj e6
  have d7 := digitChar_inj e7
  have d8 := digitChar_inj e8
  have hy : a.y = b.y := by omega
  have hm : a.m = b.m := by omega
  have hd : a.d = b.d := by omega
  rcases a with ⟨ay, am, ad⟩
  rcases b with ⟨yb, mb, db⟩
  simp only at hy hm hd
  rw [hy, hm, hd]

theorem digitVal_le9 {c : Char} {v : Nat} (h : digitVal c = some v) : v ≤ 9 := by
  unfold digitVal at h
  split at h
  · next hc =>
    have hv := Option.some.inj h
    have h9 : c.toNat ≤ 57 := hc.2
    omega
  · exact absurd h (by simp)

theorem parseYMD_valid {s : String} {x : YMD} (h : parseYMD s = some x) :
    YMDValid x ∧ x.y ≤ 9999 := by
  unfold parseYMD at h
  split at h
  · split at h
    · next a' b' c' d' e' f' g' h2' ha hb hc hd he hf hg hh =>
      dsimp only at h
      by_cases hcond : (1 ≤ 10 * e' + f' ∧ 10 * e' + f' ≤ 12 ∧ 1 ≤ 10 * g' + h2' ∧
          10 * g' + h2' ≤ daysInMonth (1000 * a' + 100 * b' + 10 * c' + d') (10 * e' + f'))
      · rw [if_pos hcond] at h
        have hx := Option.some.inj h
        obtain ⟨hm1, hm2, hd1, hd2⟩ := hcond
        have hdm := daysInMonth_le (1000 * a' + 100 * b' + 10 * c' + d') (10 * e' + f')
        have b1 := digitVal_le9 ha
        have b2 := digitVal_le9 hb
        have b3 := digitVal_le9 hc
        have b4 := digitVal_le9 hd
        rw [← hx]
        unfold YMDValid
        dsimp only
        omega
      · rw [if_neg hcond] at h
        exact absurd h (by simp)
    · exact absurd h (by simp)
  · exact absurd h (by simp)

theorem buildDays_mem (fuel : Nat) : ∀ (x e : YMD) (z : String), YMDValid x →
    z ∈ buildDays x e fuel →
    ∃ w, z = formatYMD w ∧ (w = x ∨ ymdLt x w) ∧ YMDValid w ∧ ymdLe w e = true := by
  induction fuel with
  | zero => intro x e z hv hz; exact absurd hz (List.not_mem_nil z)
  | succ n ih =>
    intro x e z hv hz
    unfold buildDays at hz
    by_cases hg : ymdLe x e = true
    · rw [if_pos hg] at hz
      rw [List.mem_cons] at hz
      rcases hz with rfl | hz
      · exact ⟨x, rfl, Or.inl rfl, hv, hg⟩
      · obtain ⟨w, hw1, hw2, hw3, hw4⟩ := ih (nextDay x) e z (nextDay_valid hv) hz
        refine ⟨w, hw1, Or.inr ?_, hw3, hw4⟩
        rcases hw2 with rfl | hw2
        · exact ymdLt_nextDay x
        · exact ymdLt_trans (ymdLt_nextDay x) hw2
    · rw [if_neg hg] at hz
      exact absurd hz (List.not_mem_nil z)

theorem buildDays_nodup (fuel : Nat) : ∀ (x e : YMD), YMDValid x → e.y ≤ 9999 →
    (buildDays x e fuel).Nodup := by
  induction fuel with
  | zero => intro x e _ _; exact List.nodup_nil
  | succ n ih =>
    intro x e hv hey
    unfold buildDays
    by_cases hg : ymdLe x e = true
    · rw [if_pos hg]
      rw [List.nodup_cons]
      refine ⟨?_, ih (nextDay x) e (nextDay_valid hv) hey⟩
      intro hmem
      obtain ⟨w, hw1, hw2, hw3, hw4⟩ := buildDays_mem n (nextDay x) e _ (nextDay_valid hv) hmem
      have hlt : ymdLt x w := by
        rcases hw2 with rfl | hw2
        · exact ymdLt_nextDay x
        · exact ymdLt_trans (ymdLt_nextDay x) hw2
      have hxb : x.y ≤ 9999 := le_trans (le_y_of_ymdLe hg) hey
      have hwb : w.y ≤ 9999 := le_trans (le_y_of_ymdLe hw4) hey
      obtain ⟨xm1, xm2, xd1, xd2⟩ := hv
      obtain ⟨wm1, wm2, wd1, wd2⟩ := hw3
      have heq : x = w := formatYMD_inj hxb hwb (by omega) (by omega) (by omega) (by omega) hw1
      exact absurd heq (ymdLt_ne hlt)
    · rw [if_neg hg]
      exact List.nodup_nil

theorem daysInMonth_pos (y m : Nat) : 1 ≤ daysInMonth y m := by
  unfold daysInMonth
  split_ifs <;> norm_num

theorem nextDay_exact {x : YMD} (h : YMDExact x) : YMDExact (nextDay x) := by
  obtain ⟨h1, h2, h3, h4⟩ := h
  unfold YMDExact nextDay
  split_ifs with ha hb <;> dsimp only
  · omega
  · have := daysInMonth_pos x.y (x.m + 1)
    omega
  · have := daysInMonth_pos (x.y + 1) 1
    omega

theorem nextDay_y_ge (x : YMD) : x.y ≤ (nextDay x).y := by
  unfold nextDay
  split_ifs <;> dsimp only <;> omega

theorem nextDay_prevDay {x : YMD} (hx : YMDExact x) (hy : 1 ≤ x.y) :
    nextDay (prevDay x) = x := by
  rcases x with ⟨y, m, d⟩
  unfold YMDExact at hx
  dsimp only at hx hy
  obtain ⟨h1, h2, h3, h4⟩ := hx
  unfold prevDay
  dsimp only
  by_cases hd : 1 < d
  · rw [if_pos hd]
    unfold nextDay
    dsimp only
    rw [if_pos (show d - 1 < daysInMonth y m by omega)]
    simp only [YMD.mk.injEq, true_and]
    omega
  · rw [if_neg hd]
    by_cases hm : 1 < m
    · rw [if_pos hm]
      unfold nextDay
      dsimp only
      rw [if_neg (lt_irrefl _)]
      rw [if_pos (show m - 1 < 12 by omega)]
      simp only [YMD.mk.injEq, true_and]
      omega
    · rw [if_neg hm]
      unfold nextDay
      dsimp only
      rw [if_neg (show ¬ (31 < daysInMonth (y - 1) 12) by
        rw [show daysInMonth (y - 1) 12 = 31 from rfl]; omega)]
      rw [if_neg (show ¬ (12 < 12) by omega)]
      simp only [YMD.mk.injEq, true_and]
      omega

theorem parseYMD_exact {s : String} {x : YMD} (h : parseYMD s = some x) : YMDExact x := by
  unfold parseYMD at h
  split at h
  · split at h
    · next a' b' c' d' e' f' g' h2' ha hb hc hd he hf hg hh =>
      dsimp only at h
      by_cases hcond : (1 ≤ 10 * e' + f' ∧ 10 * e' + f' ≤ 12 ∧ 1 ≤ 10 * g' + h2' ∧
          10 * g' + h2' ≤ daysInMonth (1000 * a' + 100 * b' + 10 * c' + d') (10 * e' + f'))
      · rw [if_pos hcond] at h
        have hx := Option.some.inj h
        rw [← hx]
        unfold YMDExact
        dsimp only
        omega
      · rw [if_neg hcond] at h
        exact absurd h (by simp)
    · exact absurd h (by simp)
  · exact absurd h (by simp)

theorem instantLe_zero (x e : YMD) : instantLe (x, 0) (e, 0) = ymdLe x e := by
  have h1 : instantLe (x, 0) (e, 0) = true ↔ ymdLe x e = true := by
    unfold instantLe ymdLe
    dsimp only
    simp only [Bool.or_eq_true, Bool.and_eq_true, decide_eq_true_eq]
    omega
  cases hb : ymdLe x e
  · rw [hb] at h1
    simpa using h1
  · rw [hb] at h1
    simpa using h1

theorem dateStep_fixedOffset {c : ℤ} (hc1 : -1440 < c) (hc2 : c < 1440) {d : YMD}
    (hx : YMDExact d) (hy : 1 ≤ d.y) :
    dateStep (fixedOffset c) (d, 0) = (nextDay d, 0) := by
  unfold dateStep fixedOffset
  dsimp only
  by_cases h0 : c < 0
  · have e1 : shiftMinutes c (d, 0) = (prevDay d, (c + 1440).toNat) := by
      unfold shiftMinutes
      dsimp only
      rw [if_pos (show (((0 : Nat) : ℤ)) + c < 0 by omega)]
      simp only [Prod.mk.injEq, true_and]
      omega
    rw [e1]
    dsimp only
    rw [nextDay_prevDay hx hy]
    unfold shiftMinutes
    dsimp only
    rw [if_neg (show ¬ ((((c + 1440).toNat : ℤ)) + -c < 0) by omega)]
    rw [if_neg (show ¬ ((((c + 1440).toNat : ℤ)) + -c < 1440) by omega)]
    simp only [Prod.mk.injEq, true_and]
    omega
  · have e1 : shiftMinutes c (d, 0) = (d, c.toNat) := by
      unfold shiftMinutes
      dsimp only
      rw [if_neg (show ¬ ((((0 : Nat) : ℤ)) + c < 0) by omega)]
      rw [if_pos (show (((0 : Nat) : ℤ)) + c < 1440 by omega)]
      simp only [Prod.mk.injEq, true_and]
      omega
    rw [e1]
    dsimp only
    unfold shiftMinutes
    dsimp only
    rw [if_neg (show ¬ (((c.toNat : ℤ)) + -c < 0) by omega)]
    rw [if_pos (show ((c.toNat : ℤ)) + -c < 1440 by omega)]
    simp only [Prod.mk.injEq, true_and]
    omega

theorem buildDaysTz_fixedOffset {c : ℤ} (hc1 : -1440 < c) (hc2 : c < 1440) :
    ∀ (fuel : Nat) (x e : YMD), YMDExact x → 1 ≤ x.y →
      buildDaysTz (fixedOffset c) (x, 0) e fuel = buildDays x e fuel := by
  intro fuel
  induction fuel with
  | zero => intro x e _ _; rfl
  | succ f ih =>
    intro x e hx hy
    unfold buildDaysTz buildDays
    rw [instantLe_zero]
    by_cases hg : ymdLe x e = true
    · rw [if_pos hg, if_pos hg]
      rw [dateStep_fixedOffset hc1 hc2 hx hy]
      rw [ih (nextDay x) e (nextDay_exact hx) (le_trans hy (nextDay_y_ge x))]
    · rw [if_neg hg, if_neg hg]

theorem fallback_sorted_strict (env : TimeseriesEnv) (fromC toC : String)
    (days : List String) (hdays : days.Nodup) :
    StrictlyAscendingDates
      ((days.filterMap (historicalPoint env fromC toC)).insertionSort
        (fun a b => strLe a.date b.date = true)) := by
  have hres : ((days.filterMap (historicalPoint env fromC toC)).map (·.date)) =
      days.filter (fun d => (historicalPoint env fromC toC d).isSome) :=
    map_date_filterMap _ _ (fun d p h => historicalPoint_date h)
  have hnodup : ((days.filterMap (historicalPoint env fromC toC)).map (·.date)).Nodup := by
    rw [hres]
    exact hdays.filter _
  have hperm := List.perm_insertionSort (fun a b => strLe a.date b.date = true)
    (days.filterMap (historicalPoint env fromC toC))
  have hnodup2 : (((days.filterMap (historicalPoint env fromC toC)).insertionSort
      (fun a b => strLe a.date b.date = true)).map (·.date)).Nodup :=
    (hperm.map (·.date)).nodup_iff.mpr hnodup
  exact strict_of_sorted_nodup_points (sortPoints_sorted _) hnodup2

/-- **C7 (counterexample)** — Under the America/New_York 2024
spring-forward timezone, `getTimeseries` over `2024-03-09 … 2024-03-11`
with every `/historical` fetch succeeding returns points dated
`2024-03-09, 2024-03-10, 2024-03-10`: the local-calendar step
`d.setDate(d.getDate() + 1)` crosses the 23-hour DST day, so
`toISOString` reads the same UTC date twice and the returned series
has a duplicate date — it is not strictly ascending. -/
theorem getTimeseries_dst_duplicate_counterexample :
    ((getTimeseries newYork2024
        ⟨Except.error (),
         fun _ => Except.ok (Json.obj [("rates", Json.obj [("EUR", Json.num (JsNum.fin 2))])])⟩
        "USD" "EUR" "2024-03-09" "2024-03-11").map (·.date) =
      ["2024-03-09", "2024-03-10", "2024-03-10"])
    ∧ ¬ StrictlyAscendingDates (getTimeseries newYork2024
        ⟨Except.error (),
         fun _ => Except.ok (Json.obj [("rates", Json.obj [("EUR", Json.num (JsNum.fin 2))])])⟩
        "USD" "EUR" "2024-03-09" "2024-03-11") := by
  have h1 : ((getTimeseries newYork2024
      ⟨Except.error (),
       fun _ => Except.ok (Json.obj [("rates", Json.obj [("EUR", Json.num (JsNum.fin 2))])])⟩
      "USD" "EUR" "2024-03-09" "2024-03-11").map (·.date) =
      ["2024-03-09", "2024-03-10", "2024-03-10"]) := by rfl
  refine ⟨h1, ?_⟩
  intro hp
  unfold StrictlyAscendingDates at hp
  have hp2 : ((getTimeseries newYork2024
      ⟨Except.error (),
       fun _ => Except.ok (Json.obj [("rates", Json.obj [("EUR", Json.num (JsNum.fin 2))])])⟩
      "USD" "EUR" "2024-03-09" "2024-03-11").map (·.date)).Pairwise
      (fun a b => strLt a b = true) := List.pairwise_map.mpr hp
  rw [h1] at hp2
  have h2 := (List.pairwise_cons.mp (List.pairwise_cons.mp hp2).2).1
    "2024-03-10" (List.mem_singleton.mpr rfl)
  rw [strLt_irrefl] at h2
  exact Bool.noConfusion h2

/-- **C7 (amended)** — When the runtime timezone has a fixed UTC
offset (no DST transition; in particular a UTC runtime), every series
`getTimeseries` returns is strictly ascending by date with no
duplicate dates — under a DST spring-forward timezone the per-day
fallback can emit the same UTC date twice.  On the batch path, for
every timezone: a non-empty batch series is returned as-is, it is
always strictly ascending, and its dates are exactly the sorted keys
the rate table enumerates (object keys, or array/string element
indices) at which both sides' rates resolve — a date missing either
side is skipped, never zero-filled.  (Start dates of year ≥ 1 are the
modelled calendar range.) -/
theorem getTimeseries_dates_spec (tz : TimeZone) (env : TimeseriesEnv)
    (pfrom pto start endS : String) :
    (∀ c : ℤ, -1440 < c → c < 1440 →
      (∀ s, parseYMD start = some s → 1 ≤ s.y) →
      StrictlyAscendingDates (getTimeseries (fixedOffset c) env pfrom pto start endS))
    ∧ (∀ json, env.timeseriesResp = Except.ok json →
        batchSeries json (strToUpper (strTrim pfrom)) (strToUpper (strTrim pto)) ≠ [] →
        getTimeseries tz env pfrom pto start endS =
          batchSeries json (strToUpper (strTrim pfrom)) (strToUpper (strTrim pto)))
    ∧ (∀ (json : Json) (fromC toC : String),
        StrictlyAscendingDates (batchSeries json fromC toC)
        ∧ (batchSeries json fromC toC).map (·.date) =
          ((bucketKeys (batchBuckets json)).insertionSort (fun a b => strLe a b = true)).filter
            (fun d => (batchPoint (batchBuckets json) fromC toC d).isSome)) := by
  refine ⟨?_, ?_, ?_⟩
  · intro c hc1 hc2 hsy
    have hdaysnodup : (match parseYMD start, parseYMD endS with
        | some s, some e => buildDaysTz (fixedOffset c) (s, 0) e (daysFuel s e)
        | _, _ => ([] : List String)).Nodup := by
      rcases hs : parseYMD start with _ | s
      all_goals rcases he : parseYMD endS with _ | e
      all_goals dsimp only
      · exact List.nodup_nil
      · exact List.nodup_nil
      · exact List.nodup_nil
      · rw [buildDaysTz_fixedOffset hc1 hc2 (daysFuel s e) s e (parseYMD_exact hs) (hsy s hs)]
        obtain ⟨hvs, _⟩ := parseYMD_valid hs
        obtain ⟨_, hye⟩ := parseYMD_valid he
        exact buildDays_nodup (daysFuel s e) s e hvs hye
    obtain ⟨cr, hist⟩ := env
    unfold getTimeseries
    dsimp only
    rcases cr with u | json
    · dsimp only
      exact fallback_sorted_strict ⟨Except.error (), hist⟩ _ _ _ hdaysnodup
    · dsimp only
      rcases hb : batchSeries json (strToUpper (strTrim pfrom)) (strToUpper (strTrim pto))
        with _ | ⟨p, ps⟩
      · dsimp only
        exact fallback_sorted_strict ⟨Except.ok json, hist⟩ _ _ _ hdaysnodup
      · dsimp only
        rw [← hb]
        exact (batchSeries_spec json _ _).1
  · intro json hj hne
    obtain ⟨cr, hist⟩ := env
    have hcr : cr = Except.ok json := hj
    subst hcr
    unfold getTimeseries
    dsimp only
    rcases hb : batchSeries json (strToUpper (strTrim pfrom)) (strToUpper (strTrim pto))
      with _ | ⟨p, ps⟩
    · exact absurd hb hne
    · dsimp only
  · intro json fromC toC
    exact ⟨(batchSeries_spec json fromC toC).1, (batchSeries_spec json fromC toC).2⟩

/-- **C7 (witness)** — Concrete instantiations: under the UTC runtime
(`fixedOffset 0`) a fallback series over a two-day range is strictly
ascending; a batch payload with two dates where one date is missing
the target symbol yields exactly the one complete point with
cross-rate 2; and an ARRAY-shaped rate table yields the batch point
dated `"0"` (its array index), bypassing the fallback. -/
theorem getTimeseries_dates_spec_witness :
    ((-1440 : ℤ) < 0 ∧ (0 : ℤ) < 1440)
    ∧ StrictlyAscendingDates (getTimeseries (fixedOffset 0)
        ⟨Except.error (),
         fun _ => Except.ok (Json.obj [("rates", Json.obj [("EUR", Json.num (JsNum.fin 2))])])⟩
        "USD" "EUR" "2024-01-01" "2024-01-02")
    ∧ getTimeseries (fixedOffset 0)
        ⟨Except.ok (Json.obj [("rates", Json.obj
          [("2024-01-02", Json.obj []),
           ("2024-01-01", Json.obj [("EUR", Json.num (JsNum.fin 2))])])]),
         fun _ => Except.error ()⟩
        "USD" "EUR" "2024-01-01" "2024-01-02" =
        [⟨"2024-01-01", jsDivNum (JsNum.fin 2) (JsNum.fin 1)⟩]
    ∧ getTimeseries (fixedOffset 0)
        ⟨Except.ok (Json.obj [("rates", Json.arr
          [Json.obj [("EUR", Json.num (JsNum.fin 2))]])]),
         fun _ => Except.error ()⟩
        "USD" "EUR" "2024-01-01" "2024-01-02" =
        [⟨"0", jsDivNum (JsNum.fin 2) (JsNum.fin 1)⟩]
    ∧ jsDivNum (JsNum.fin 2) (JsNum.fin 1) = JsNum.fin 2 := by
  have hstrict := (getTimeseries_dates_spec (fixedOffset 0)
    ⟨Except.error (),
     fun _ => Except.ok (Json.obj [("rates", Json.obj [("EUR", Json.num (JsNum.fin 2))])])⟩
    "USD" "EUR" "2024-01-01" "2024-01-02").1 0 (by decide) (by decide)
    (by intro s hs
        rw [show parseYMD "2024-01-01" = some ⟨2024, 1, 1⟩ from rfl] at hs
        rw [← Option.some.inj hs]
        decide)
  have hbatch : batchSeries (Json.obj [("rates", Json.obj
      [("2024-01-02", Json.obj []),
       ("2024-01-01", Json.obj [("EUR", Json.num (JsNum.fin 2))])])]) "USD" "EUR" =
      [⟨"2024-01-01", jsDivNum (JsNum.fin 2) (JsNum.fin 1)⟩] := rfl
  have h := (getTimeseries_dates_spec (fixedOffset 0)
    ⟨Except.ok (Json.obj [("rates", Json.obj
      [("2024-01-02", Json.obj []),
       ("2024-01-01", Json.obj [("EUR", Json.num (JsNum.fin 2))])])]),
     fun _ => Except.error ()⟩
    "USD" "EUR" "2024-01-01" "2024-01-02").2.1
    (Json.obj [("rates", Json.obj
      [("2024-01-02", Json.obj []),
       ("2024-01-01", Json.obj [("EUR", Json.num (JsNum.fin 2))])])])
    rfl
    (by intro hh
        have : ([⟨"2024-01-01", jsDivNum (JsNum.fin 2) (JsNum.fin 1)⟩] :
            List TimeseriesPoint) = [] := hbatch ▸ hh
        exact List.noConfusion this)
  have hbatchA : batchSeries (Json.obj [("rates", Json.arr
      [Json.obj [("EUR", Json.num (JsNum.fin 2))]])]) "USD" "EUR" =
      [⟨"0", jsDivNum (JsNum.fin 2) (JsNum.fin 1)⟩] := rfl
  have hA := (getTimeseries_dates_spec (fixedOffset 0)
    ⟨Except.ok (Json.obj [("rates", Json.arr
      [Json.obj [("EUR", Json.num (JsNum.fin 2))]])]),
     fun _ => Except.error ()⟩
    "USD" "EUR" "2024-01-01" "2024-01-02").2.1
    (Json.obj [("rates", Json.arr [Json.obj [("EUR", Json.num (JsNum.fin 2))]])])
    rfl
    (by intro hh
        have : ([⟨"0", jsDivNum (JsNum.fin 2) (JsNum.fin 1)⟩] :
            List TimeseriesPoint) = [] := hbatchA ▸ hh
        exact List.noConfusion this)
  refine ⟨⟨by decide, by decide⟩, hstrict, ?_, ?_, ?_⟩
  · rw [h]
    exact hbatch
  · rw [hA]
    exact hbatchA
  · norm_num [jsDivNum, jsDivQ]

end CurrencyApi
